import Mathlib

/-!
# Verification development for the `funnel` request-coalescing library

This file embeds the core of `funnel.go` (package `funnel`) as a small-step
interleaved transition system and proves properties of the embedding.

Modelling conventions:
* Go `interface{}` result values are modelled as `Option Nat` (`none` = `nil`).
* Go `error` values are modelled as `Option GoErr`; the package-private
  sentinel `timeoutError` is `GoErr.timeoutErr`.  A user operation body cannot
  produce a value identical to the unexported sentinel, so body errors are
  injected through `GoErr.userErr`.
* Times (`time.Time` / `time.Duration`) are modelled as `Int` instants, with
  the fact that Go's `time.After` of a non-positive duration fires immediately
  reflected by clamping the remaining duration at zero.
* Each Go goroutine is an explicit thread with a program counter; every
  mutex-protected critical section (and every single field access that the
  other goroutines can observe) is one atomic step of the transition system.
* The record field `invCount` is ghost instrumentation counting how many times
  the user operation body of the record's executor has been invoked.
-/

set_option autoImplicit false

namespace Funnel

/-- Errors: the package sentinel `timeoutError` (unexported in Go, hence not
forgeable by a user operation body), or an arbitrary user error. -/
inductive GoErr where
  | timeoutErr : GoErr
  | userErr : Nat → GoErr
deriving DecidableEq, Repr

/-- The user operation body `func() (interface{}, error)`: it either returns a
(value, error) pair or panics with a payload. -/
inductive BodyCode where
  | returns : Option Nat → Option Nat → BodyCode
  | panics : Nat → BodyCode
deriving DecidableEq, Repr

/-- The pair a body produces on normal return (result value paired with the
user error injected into `GoErr`), `none` when the body panics. -/
def bodyRes : BodyCode → Option (Option Nat × Option GoErr)
  | BodyCode.returns v e => some (v, e.map GoErr.userErr)
  | BodyCode.panics _ => none

/-- `Config` from `funnel.go`, together with the `shouldCache` field referenced
by `options.go` (`WithShouldCachePredicate`); `none` models the nil predicate. -/
structure Config where
  cacheTtl : Int
  timeout : Int
  shouldCache : Option (Option Nat → Option GoErr → Bool)

/-- `WithTimeout` option setter. -/
def WithTimeout (t : Int) : Config → Config :=
  fun cfg => { cfg with timeout := t }

/-- `WithCacheTtl` option setter. -/
def WithCacheTtl (cTtl : Int) : Config → Config :=
  fun cfg => { cfg with cacheTtl := cTtl }

/-- `WithShouldCachePredicate` option setter from `options.go`. -/
def WithShouldCachePredicate (p : Option Nat → Option GoErr → Bool) : Config → Config :=
  fun cfg => { cfg with shouldCache := some p }

/-- One minute in nanoseconds (Go `time.Duration(time.Minute)`). -/
def minuteNs : Int := 60000000000

/-- `New`: default timeout one minute, default cacheTtl 0, nil predicate;
then the option setters are applied in order. -/
def New (opts : List (Config → Config)) : Config :=
  opts.foldl (fun cfg opt => opt cfg)
    { timeout := minuteNs, cacheTtl := 0, shouldCache := none }

/-- `operationInProcess` from `funnel.go`.  `doneClosed` models the closed
state of the `done` channel; `invCount` is ghost instrumentation. -/
structure OpRecord where
  operationId : String
  res : Option Nat
  err : Option GoErr
  panicErr : Option Nat
  deleted : Bool
  completed : Bool
  doneClosed : Bool
  startTime : Int
  invCount : Nat
deriving DecidableEq, Repr

/-- Program counter of one caller goroutine running `Execute(id, body)`. -/
inductive CallerPhase where
  /-- about to enter `getOperationInProcess`. -/
  | toStart : String → BodyCode → CallerPhase
  /-- blocked in `wait` on record `rec`, having entered `wait` at `joinTime`
  (when `operationTimeoutRemaining` was computed and the timer armed). -/
  | waiting : Nat → Int → CallerPhase
  /-- `wait` returned the timeout sentinel; `Execute` is about to run
  `deleteOperation` and then return `(nil, timeoutError)`. -/
  | timedOut : Nat → CallerPhase
  /-- `Execute` returned `(res, err)`; the `Bool` is true when the return was
  the `(nil, timeoutError)` sentinel path. -/
  | finished : Nat → Bool → Option Nat → Option GoErr → CallerPhase
  /-- `wait` re-raised the operation's panic payload to this caller. -/
  | finishedPanic : Nat → Nat → CallerPhase
deriving DecidableEq, Repr

/-- Program counter of the executor goroutine spawned in
`getOperationInProcess`. -/
inductive ExecPhase where
  /-- about to invoke `opExeFunc()`. -/
  | toRun : ExecPhase
  /-- body returned normally and `res`/`err` are written; about to run
  `opInProc.completed.Set()`. -/
  | toSetCompleted : ExecPhase
  /-- about to run the deferred `closeOperation`; the payload is `some p` when
  the body panicked with `p` and the panic is still unwinding. -/
  | toClose : Option Nat → ExecPhase
  /-- goroutine ended; the `Bool` is true when a panic escaped unrecovered. -/
  | exited : Bool → ExecPhase
deriving DecidableEq, Repr

/-- The executor goroutine: which record it drives and with which body. -/
structure ExecThread where
  recIdx : Nat
  body : BodyCode
  phase : ExecPhase
deriving DecidableEq, Repr

/-- The delayed deletion goroutine spawned by `closeOperation`
(`time.Sleep(cacheTtl); deleteOperation(op)`). -/
structure TtlThread where
  recIdx : Nat
  fireAt : Int
  fired : Bool
deriving DecidableEq, Repr

/-- Global state: the `Funnel` (registry map keyed by operation id, pointing
into the record pool) plus every goroutine and the clock. -/
structure FunnelState where
  now : Int
  registry : String → Option Nat
  recCount : Nat
  records : Nat → Option OpRecord
  callers : Nat → Option CallerPhase
  execs : Nat → Option ExecThread
  execCount : Nat
  ttls : Nat → Option TtlThread
  ttlCount : Nat

/-- Point update of a partial map. -/
def upd {α : Type} (f : Nat → Option α) (k : Nat) (x : α) : Nat → Option α :=
  fun i => if i = k then some x else f i

/-- `operationElapsedTime`: `time.Since(op.startTime)` in `wait`. -/
def operationElapsedTime (startTime now : Int) : Int := now - startTime

/-- `operationTimeoutRemaining`: `timeout - operationElapsedTime` in `wait`. -/
def operationTimeoutRemaining (timeout startTime now : Int) : Int :=
  timeout - operationElapsedTime startTime now

/-- The absolute instant at which the deadline timer armed in `wait` fires: a
`time.After` of a non-positive duration fires immediately, so clamp at zero. -/
def timerFireTime (timeout startTime joinTime : Int) : Int :=
  joinTime + max (operationTimeoutRemaining timeout startTime joinTime) 0

/-- `deleteOperation` (funnel.go): guarded by the record's `deleted` flag, it
removes the registry mapping *keyed by the operation id alone* and sets the
flag, atomically under the funnel mutex.  (The lock-free pre-check in the Go
code can only skip the critical section, so it is not modelled separately.) -/
def deleteOperation (s : FunnelState) (j : Nat) : FunnelState :=
  match s.records j with
  | none => s
  | some r =>
    if r.deleted then s
    else
      { s with
        registry := fun id => if id = r.operationId then none else s.registry id,
        records := upd s.records j { r with deleted := true } }

/-- The schedulable atomic steps, one constructor per critical section or
observable access of each goroutine. -/
inductive Action where
  /-- the clock advances. -/
  | tick : Nat → Action
  /-- caller `i` runs the `getOperationInProcess` critical section and enters
  `wait` (arming its timer). -/
  | callerStart : Nat → Action
  /-- caller `i`, blocked in `wait`, observes the closed `done` channel. -/
  | callerDone : Nat → Action
  /-- caller `i`'s deadline timer fires and the timer branch of `wait` runs. -/
  | callerTimer : Nat → Action
  /-- caller `i` runs `Execute`'s `deleteOperation` after a timeout return. -/
  | callerDelete : Nat → Action
  /-- executor `k` invokes the user operation body. -/
  | execRun : Nat → Action
  /-- executor `k` runs `opInProc.completed.Set()`. -/
  | execComplete : Nat → Action
  /-- executor `k` runs the deferred `closeOperation` critical section. -/
  | execClose : Nat → Action
  /-- delayed-deletion goroutine `m` wakes from `time.Sleep(cacheTtl)` and
  runs `deleteOperation`. -/
  | ttlFire : Nat → Action
deriving DecidableEq, Repr

/-- One atomic step.  A disabled action leaves the state unchanged. -/
def stepA (cfg : Config) (s : FunnelState) (a : Action) : FunnelState :=
  match a with
  | Action.tick d => { s with now := s.now + (d : Int) }
  | Action.callerStart i =>
    match s.callers i with
    | some (CallerPhase.toStart id body) =>
      match s.registry id with
      | some j => { s with callers := upd s.callers i (CallerPhase.waiting j s.now) }
      | none =>
        let j := s.recCount
        { s with
          recCount := j + 1,
          records := upd s.records j
            { operationId := id, res := none, err := none, panicErr := none,
              deleted := false, completed := false, doneClosed := false,
              startTime := s.now, invCount := 0 },
          registry := fun id' => if id' = id then some j else s.registry id',
          execs := upd s.execs s.execCount { recIdx := j, body := body, phase := ExecPhase.toRun },
          execCount := s.execCount + 1,
          callers := upd s.callers i (CallerPhase.waiting j s.now) }
    | _ => s
  | Action.callerDone i =>
    match s.callers i with
    | some (CallerPhase.waiting j _) =>
      match s.records j with
      | some r =>
        if r.doneClosed then
          match r.panicErr with
          | some p => { s with callers := upd s.callers i (CallerPhase.finishedPanic j p) }
          | none => { s with callers := upd s.callers i (CallerPhase.finished j false r.res r.err) }
        else s
      | none => s
    | _ => s
  | Action.callerTimer i =>
    match s.callers i with
    | some (CallerPhase.waiting j joinTime) =>
      match s.records j with
      | some r =>
        if timerFireTime cfg.timeout r.startTime joinTime ≤ s.now then
          if r.completed then
            { s with callers := upd s.callers i (CallerPhase.finished j false r.res r.err) }
          else
            { s with callers := upd s.callers i (CallerPhase.timedOut j) }
        else s
      | none => s
    | _ => s
  | Action.callerDelete i =>
    match s.callers i with
    | some (CallerPhase.timedOut j) =>
      { deleteOperation s j with
        callers := upd s.callers i
          (CallerPhase.finished j true none (some GoErr.timeoutErr)) }
    | _ => s
  | Action.execRun k =>
    match s.execs k with
    | some e =>
      match e.phase with
      | ExecPhase.toRun =>
        match s.records e.recIdx with
        | some r =>
          match e.body with
          | BodyCode.returns v er =>
            { s with
              records := upd s.records e.recIdx
                { r with res := v, err := er.map GoErr.userErr, invCount := r.invCount + 1 },
              execs := upd s.execs k { e with phase := ExecPhase.toSetCompleted } }
          | BodyCode.panics p =>
            { s with
              records := upd s.records e.recIdx { r with invCount := r.invCount + 1 },
              execs := upd s.execs k { e with phase := ExecPhase.toClose (some p) } }
        | none => s
      | _ => s
    | none => s
  | Action.execComplete k =>
    match s.execs k with
    | some e =>
      match e.phase with
      | ExecPhase.toSetCompleted =>
        match s.records e.recIdx with
        | some r =>
          { s with
            records := upd s.records e.recIdx { r with completed := true },
            execs := upd s.execs k { e with phase := ExecPhase.toClose none } }
        | none => s
      | _ => s
    | none => s
  | Action.execClose k =>
    match s.execs k with
    | some e =>
      match e.phase with
      | ExecPhase.toClose pending =>
        match s.records e.recIdx with
        | some r =>
          if r.deleted then
            { s with execs := upd s.execs k { e with phase := ExecPhase.exited pending.isSome } }
          else
            { s with
              records := upd s.records e.recIdx
                { r with
                  panicErr := match pending with | some p => some p | none => r.panicErr,
                  doneClosed := true },
              ttls := upd s.ttls s.ttlCount
                { recIdx := e.recIdx, fireAt := s.now + cfg.cacheTtl, fired := false },
              ttlCount := s.ttlCount + 1,
              execs := upd s.execs k { e with phase := ExecPhase.exited false } }
        | none => s
      | _ => s
    | none => s
  | Action.ttlFire m =>
    match s.ttls m with
    | some t =>
      if t.fired = false ∧ t.fireAt ≤ s.now then
        { deleteOperation s t.recIdx with ttls := upd s.ttls m { t with fired := true } }
      else s
    | none => s

/-- Initial state: a fresh funnel (`New`) plus one pending `Execute` call per
element of `calls` (operation id and body). -/
def initState (calls : List (String × BodyCode)) : FunnelState :=
  { now := 0,
    registry := fun _ => none,
    recCount := 0,
    records := fun _ => none,
    callers := fun i => (calls[i]?).map (fun c => CallerPhase.toStart c.1 c.2),
    execs := fun _ => none,
    execCount := 0,
    ttls := fun _ => none,
    ttlCount := 0 }

/-- Run a schedule of actions. -/
def run (cfg : Config) (s : FunnelState) : List Action → FunnelState
  | [] => s
  | a :: rest => run cfg (stepA cfg s a) rest

/-- Reachability: some initial state followed by some schedule. -/
inductive Reach (cfg : Config) : FunnelState → Prop where
  | init (calls : List (String × BodyCode)) : Reach cfg (initState calls)
  | step {s : FunnelState} (a : Action) : Reach cfg s → Reach cfg (stepA cfg s a)

end Funnel

namespace Funnel

theorem upd_self {α : Type} (f : Nat → Option α) (k : Nat) (x : α) : upd f k x k = some x := by
  simp [upd]

theorem upd_ne {α : Type} (f : Nat → Option α) {i k : Nat} (h : i ≠ k) (x : α) :
    upd f k x i = f i := by
  simp [upd, h]

/-- The global invariant of reachable funnel states. -/
structure Inv (s : FunnelState) : Prop where
  recBound : ∀ j, s.recCount ≤ j → s.records j = none
  regSound : ∀ id j, s.registry id = some j →
    ∃ r, s.records j = some r ∧ r.operationId = id ∧ r.deleted = false
  recRegistered : ∀ j r, s.records j = some r → r.deleted = false →
    s.registry r.operationId = some j
  execBound : ∀ k, s.execCount ≤ k → s.execs k = none
  execRecValid : ∀ k e, s.execs k = some e → ∃ r, s.records e.recIdx = some r
  execUnique : ∀ k k' e e', s.execs k = some e → s.execs k' = some e' →
    e.recIdx = e'.recIdx → k = k'
  recHasExec : ∀ j r, s.records j = some r → ∃ k e, s.execs k = some e ∧ e.recIdx = j
  invTracks : ∀ k e r, s.execs k = some e → s.records e.recIdx = some r →
    r.invCount = (if e.phase = ExecPhase.toRun then 0 else 1)
  phaseRun : ∀ k e r, s.execs k = some e → s.records e.recIdx = some r →
    e.phase = ExecPhase.toRun →
    r.completed = false ∧ r.doneClosed = false ∧ r.panicErr = none
  phaseSetC : ∀ k e r, s.execs k = some e → s.records e.recIdx = some r →
    e.phase = ExecPhase.toSetCompleted →
    r.completed = false ∧ r.doneClosed = false ∧ r.panicErr = none ∧
    bodyRes e.body = some (r.res, r.err)
  phaseClose : ∀ k e r pend, s.execs k = some e → s.records e.recIdx = some r →
    e.phase = ExecPhase.toClose pend →
    r.doneClosed = false ∧ r.panicErr = none ∧
    (pend = none → r.completed = true ∧ bodyRes e.body = some (r.res, r.err)) ∧
    (∀ p, pend = some p → e.body = BodyCode.panics p ∧ r.completed = false)
  completedBody : ∀ k e r, s.execs k = some e → s.records e.recIdx = some r →
    r.completed = true → bodyRes e.body = some (r.res, r.err)
  doneBody : ∀ k e r, s.execs k = some e → s.records e.recIdx = some r →
    r.doneClosed = true → r.panicErr = none → bodyRes e.body = some (r.res, r.err)
  finishedResult : ∀ i j v er, s.callers i = some (CallerPhase.finished j false v er) →
    ∃ r, s.records j = some r ∧ r.res = v ∧ r.err = er ∧
      (r.completed = true ∨ (r.doneClosed = true ∧ r.panicErr = none))

theorem inv_initState (calls : List (String × BodyCode)) : Inv (initState calls) := by
  constructor <;> intros <;> simp_all [initState]

end Funnel

namespace Funnel

theorem deleteOperation_records_ne (s : FunnelState) (j j' : Nat) (h : j' ≠ j) :
    (deleteOperation s j).records j' = s.records j' := by
  unfold deleteOperation
  split
  · rfl
  · split
    · rfl
    · exact upd_ne _ h _

theorem inv_delete_aux {s : FunnelState} (hs : Inv s) {j : Nat} {r : OpRecord}
    (hr : s.records j = some r) (hdelF : r.deleted = false) :
    Inv { s with
      registry := fun id => if id = r.operationId then none else s.registry id,
      records := upd s.records j { r with deleted := true } } := by
  have hregj : s.registry r.operationId = some j := hs.recRegistered j r hr hdelF
  have hjlt : ¬ s.recCount ≤ j := by
    intro h
    rw [hs.recBound j h] at hr
    cases hr
  constructor
  · intro j' hj'
    have hne : j' ≠ j := by
      rintro rfl
      exact hjlt hj'
    show upd s.records j { r with deleted := true } j' = none
    rw [upd_ne _ hne]
    exact hs.recBound j' hj'
  · intro id j0 h0
    dsimp only at h0 ⊢
    split_ifs at h0 with hid
    obtain ⟨r0, hr0, hid0, hdel0⟩ := hs.regSound id j0 h0
    have hne : j0 ≠ j := by
      rintro rfl
      rw [hr] at hr0
      cases hr0
      exact hid hid0.symm
    refine ⟨r0, ?_, hid0, hdel0⟩
    rw [upd_ne _ hne]
    exact hr0
  · intro j0 r0 h0 hd0
    dsimp only at h0 ⊢
    by_cases hj0 : j0 = j
    · subst hj0
      rw [upd_self] at h0
      cases h0
      cases hd0
    · rw [upd_ne _ hj0] at h0
      have hreg0 := hs.recRegistered j0 r0 h0 hd0
      have hidne : ¬ r0.operationId = r.operationId := by
        intro heq
        rw [heq, hregj] at hreg0
        cases hreg0
        exact hj0 rfl
      rw [if_neg hidne]
      exact hreg0
  · exact hs.execBound
  · intro k e he
    dsimp only at he ⊢
    by_cases hj0 : e.recIdx = j
    · refine ⟨{ r with deleted := true }, ?_⟩
      rw [hj0]
      exact upd_self _ _ _
    · obtain ⟨r0, hr0⟩ := hs.execRecValid k e he
      refine ⟨r0, ?_⟩
      rw [upd_ne _ hj0]
      exact hr0
  · exact hs.execUnique
  · intro j0 r0 h0
    dsimp only at h0 ⊢
    by_cases hj0 : j0 = j
    · subst hj0
      exact hs.recHasExec j0 r hr
    · rw [upd_ne _ hj0] at h0
      exact hs.recHasExec j0 r0 h0
  · intro k e r0 he h0
    dsimp only at he h0 ⊢
    by_cases hj0 : e.recIdx = j
    · rw [hj0, upd_self] at h0
      cases h0
      exact hs.invTracks k e r he (by rw [hj0]; exact hr)
    · rw [upd_ne _ hj0] at h0
      exact hs.invTracks k e r0 he h0
  · intro k e r0 he h0 hph
    dsimp only at he h0 ⊢
    by_cases hj0 : e.recIdx = j
    · rw [hj0, upd_self] at h0
      cases h0
      exact hs.phaseRun k e r he (by rw [hj0]; exact hr) hph
    · rw [upd_ne _ hj0] at h0
      exact hs.phaseRun k e r0 he h0 hph
  · intro k e r0 he h0 hph
    dsimp only at he h0 ⊢
    by_cases hj0 : e.recIdx = j
    · rw [hj0, upd_self] at h0
      cases h0
      exact hs.phaseSetC k e r he (by rw [hj0]; exact hr) hph
    · rw [upd_ne _ hj0] at h0
      exact hs.phaseSetC k e r0 he h0 hph
  · intro k e r0 pend he h0 hph
    dsimp only at he h0 ⊢
    by_cases hj0 : e.recIdx = j
    · rw [hj0, upd_self] at h0
      cases h0
      exact hs.phaseClose k e r pend he (by rw [hj0]; exact hr) hph
    · rw [upd_ne _ hj0] at h0
      exact hs.phaseClose k e r0 pend he h0 hph
  · intro k e r0 he h0 hc
    dsimp only at he h0 ⊢
    by_cases hj0 : e.recIdx = j
    · rw [hj0, upd_self] at h0
      cases h0
      exact hs.completedBody k e r he (by rw [hj0]; exact hr) hc
    · rw [upd_ne _ hj0] at h0
      exact hs.completedBody k e r0 he h0 hc
  · intro k e r0 he h0 hdc hpe
    dsimp only at he h0 ⊢
    by_cases hj0 : e.recIdx = j
    · rw [hj0, upd_self] at h0
      cases h0
      exact hs.doneBody k e r he (by rw [hj0]; exact hr) hdc hpe
    · rw [upd_ne _ hj0] at h0
      exact hs.doneBody k e r0 he h0 hdc hpe
  · intro i j0 v er hcall
    dsimp only at hcall ⊢
    obtain ⟨r0, hr0, hres, herr, hdisj⟩ := hs.finishedResult i j0 v er hcall
    by_cases hj0 : j0 = j
    · subst hj0
      rw [hr] at hr0
      cases hr0
      exact ⟨{ r with deleted := true }, upd_self _ _ _, hres, herr, hdisj⟩
    · refine ⟨r0, ?_, hres, herr, hdisj⟩
      rw [upd_ne _ hj0]
      exact hr0

theorem inv_deleteOperation {s : FunnelState} (hs : Inv s) (j : Nat) :
    Inv (deleteOperation s j) := by
  unfold deleteOperation
  split
  · exact hs
  next r hr =>
    split
    next hdel => exact hs
    next hdel =>
      exact inv_delete_aux hs hr (by cases hd : r.deleted with | false => rfl | true => exact absurd hd hdel)

end Funnel

namespace Funnel

theorem deleteOperation_callers (s : FunnelState) (j : Nat) :
    (deleteOperation s j).callers = s.callers := by
  unfold deleteOperation
  split
  · rfl
  · split
    · rfl
    · rfl

theorem deleteOperation_execs (s : FunnelState) (j : Nat) :
    (deleteOperation s j).execs = s.execs := by
  unfold deleteOperation
  split
  · rfl
  · split
    · rfl
    · rfl

theorem deleteOperation_ttls (s : FunnelState) (j : Nat) :
    (deleteOperation s j).ttls = s.ttls := by
  unfold deleteOperation
  split
  · rfl
  · split
    · rfl
    · rfl

/-- Updating one caller's program counter preserves the invariant, provided a
new `finished _ false _ _` phase is justified by the record it points to. -/
theorem inv_callers_upd {s : FunnelState} (hs : Inv s) (i : Nat) (ph : CallerPhase)
    (hph : ∀ j v er, ph = CallerPhase.finished j false v er →
      ∃ r, s.records j = some r ∧ r.res = v ∧ r.err = er ∧
        (r.completed = true ∨ (r.doneClosed = true ∧ r.panicErr = none))) :
    Inv { s with callers := upd s.callers i ph } := by
  cases hs with
  | mk recBound regSound recRegistered execBound execRecValid execUnique recHasExec
      invTracks phaseRun phaseSetC phaseClose completedBody doneBody finishedResult =>
    constructor
    case finishedResult =>
      intro i' j v er hcall
      dsimp only at hcall ⊢
      by_cases hi : i' = i
      · rw [hi, upd_self] at hcall
        cases hcall
        exact hph j v er rfl
      · rw [upd_ne _ hi] at hcall
        exact finishedResult i' j v er hcall
    all_goals assumption

end Funnel

namespace Funnel

/-- Updating the executor `k` of record `e.recIdx` together with that record
preserves the invariant, provided the updated pair re-establishes every
per-executor clause. -/
theorem inv_exec_upd {s : FunnelState} (hs : Inv s) {k : Nat} {e : ExecThread}
    (he : s.execs k = some e) {r : OpRecord} (hr : s.records e.recIdx = some r)
    (r' : OpRecord) (e' : ExecThread) (tt : Nat → Option TtlThread) (tc : Nat)
    (hrec : e'.recIdx = e.recIdx)
    (hid : r'.operationId = r.operationId) (hdel : r'.deleted = r.deleted)
    (hinv' : r'.invCount = if e'.phase = ExecPhase.toRun then 0 else 1)
    (hphR : e'.phase = ExecPhase.toRun →
      r'.completed = false ∧ r'.doneClosed = false ∧ r'.panicErr = none)
    (hphS : e'.phase = ExecPhase.toSetCompleted →
      r'.completed = false ∧ r'.doneClosed = false ∧ r'.panicErr = none ∧
      bodyRes e'.body = some (r'.res, r'.err))
    (hphC : ∀ pend, e'.phase = ExecPhase.toClose pend →
      r'.doneClosed = false ∧ r'.panicErr = none ∧
      (pend = none → r'.completed = true ∧ bodyRes e'.body = some (r'.res, r'.err)) ∧
      (∀ p, pend = some p → e'.body = BodyCode.panics p ∧ r'.completed = false))
    (hcomp : r'.completed = true → bodyRes e'.body = some (r'.res, r'.err))
    (hdone : r'.doneClosed = true → r'.panicErr = none →
      bodyRes e'.body = some (r'.res, r'.err))
    (hfin : ∀ i v er, s.callers i = some (CallerPhase.finished e.recIdx false v er) →
      r'.res = v ∧ r'.err = er ∧
      (r'.completed = true ∨ (r'.doneClosed = true ∧ r'.panicErr = none))) :
    Inv { s with records := upd s.records e.recIdx r', execs := upd s.execs k e',
                 ttls := tt, ttlCount := tc } := by
  have hjlt : ¬ s.recCount ≤ e.recIdx := by
    intro h
    rw [hs.recBound _ h] at hr
    cases hr
  have hklt : ¬ s.execCount ≤ k := by
    intro h
    rw [hs.execBound _ h] at he
    cases he
  constructor
  · intro j' hj'
    have hne : j' ≠ e.recIdx := by
      rintro rfl
      exact hjlt hj'
    show upd s.records e.recIdx r' j' = none
    rw [upd_ne _ hne]
    exact hs.recBound j' hj'
  · intro id j0 h0
    dsimp only at h0 ⊢
    obtain ⟨r0, hr0, hid0, hdel0⟩ := hs.regSound id j0 h0
    by_cases hj0 : j0 = e.recIdx
    · subst hj0
      rw [hr] at hr0
      cases hr0
      refine ⟨r', ?_, ?_, ?_⟩
      · rw [upd_self]
      · rw [hid, hid0]
      · rw [hdel, hdel0]
    · refine ⟨r0, ?_, hid0, hdel0⟩
      rw [upd_ne _ hj0]
      exact hr0
  · intro j0 r0 h0 hd0
    dsimp only at h0 ⊢
    by_cases hj0 : j0 = e.recIdx
    · subst hj0
      rw [upd_self] at h0
      cases h0
      rw [hid]
      exact hs.recRegistered _ r hr (by rw [← hdel]; exact hd0)
    · rw [upd_ne _ hj0] at h0
      exact hs.recRegistered j0 r0 h0 hd0
  · intro k' hk'
    have hne : k' ≠ k := by
      rintro rfl
      exact hklt hk'
    show upd s.execs k e' k' = none
    rw [upd_ne _ hne]
    exact hs.execBound k' hk'
  · intro k' e0 he0
    dsimp only at he0 ⊢
    by_cases hk' : k' = k
    · rw [hk', upd_self] at he0
      cases he0
      refine ⟨r', ?_⟩
      rw [hrec, upd_self]
    · rw [upd_ne _ hk'] at he0
      by_cases hj0 : e0.recIdx = e.recIdx
      · refine ⟨r', ?_⟩
        rw [hj0, upd_self]
      · obtain ⟨r0, hr0⟩ := hs.execRecValid k' e0 he0
        refine ⟨r0, ?_⟩
        rw [upd_ne _ hj0]
        exact hr0
  · intro k1 k2 e1 e2 he1 he2 h12
    dsimp only at he1 he2
    by_cases hk1 : k1 = k <;> by_cases hk2 : k2 = k
    · rw [hk1, hk2]
    · rw [hk1, upd_self] at he1
      rw [upd_ne _ hk2] at he2
      cases he1
      rw [hk1]
      exact (hs.execUnique k2 k e2 e he2 he (by rw [← h12, hrec])).symm
    · rw [hk2, upd_self] at he2
      rw [upd_ne _ hk1] at he1
      cases he2
      rw [hk2]
      exact hs.execUnique k1 k e1 e he1 he (by rw [h12, hrec])
    · rw [upd_ne _ hk1] at he1
      rw [upd_ne _ hk2] at he2
      exact hs.execUnique k1 k2 e1 e2 he1 he2 h12
  · intro j0 r0 h0
    dsimp only at h0 ⊢
    by_cases hj0 : j0 = e.recIdx
    · exact ⟨k, e', by rw [upd_self], by rw [hrec, hj0]⟩
    · rw [upd_ne _ hj0] at h0
      obtain ⟨k1, e1, he1, hrec1⟩ := hs.recHasExec j0 r0 h0
      have hk1 : k1 ≠ k := by
        rintro rfl
        rw [he] at he1
        cases he1
        exact hj0 hrec1.symm
      exact ⟨k1, e1, by rw [upd_ne _ hk1]; exact he1, hrec1⟩
  · intro k' e0 r0 he0 h0
    dsimp only at he0 h0 ⊢
    by_cases hk' : k' = k
    · rw [hk', upd_self] at he0
      cases he0
      rw [hrec, upd_self] at h0
      cases h0
      exact hinv'
    · rw [upd_ne _ hk'] at he0
      have hj0 : e0.recIdx ≠ e.recIdx := by
        intro h
        exact hk' (hs.execUnique k' k e0 e he0 he h)
      rw [upd_ne _ hj0] at h0
      exact hs.invTracks k' e0 r0 he0 h0
  · intro k' e0 r0 he0 h0 hph
    dsimp only at he0 h0 ⊢
    by_cases hk' : k' = k
    · rw [hk', upd_self] at he0
      cases he0
      rw [hrec, upd_self] at h0
      cases h0
      exact hphR hph
    · rw [upd_ne _ hk'] at he0
      have hj0 : e0.recIdx ≠ e.recIdx := by
        intro h
        exact hk' (hs.execUnique k' k e0 e he0 he h)
      rw [upd_ne _ hj0] at h0
      exact hs.phaseRun k' e0 r0 he0 h0 hph
  · intro k' e0 r0 he0 h0 hph
    dsimp only at he0 h0 ⊢
    by_cases hk' : k' = k
    · rw [hk', upd_self] at he0
      cases he0
      rw [hrec, upd_self] at h0
      cases h0
      exact hphS hph
    · rw [upd_ne _ hk'] at he0
      have hj0 : e0.recIdx ≠ e.recIdx := by
        intro h
        exact hk' (hs.execUnique k' k e0 e he0 he h)
      rw [upd_ne _ hj0] at h0
      exact hs.phaseSetC k' e0 r0 he0 h0 hph
  · intro k' e0 r0 pend he0 h0 hph
    dsimp only at he0 h0 ⊢
    by_cases hk' : k' = k
    · rw [hk', upd_self] at he0
      cases he0
      rw [hrec, upd_self] at h0
      cases h0
      exact hphC pend hph
    · rw [upd_ne _ hk'] at he0
      have hj0 : e0.recIdx ≠ e.recIdx := by
        intro h
        exact hk' (hs.execUnique k' k e0 e he0 he h)
      rw [upd_ne _ hj0] at h0
      exact hs.phaseClose k' e0 r0 pend he0 h0 hph
  · intro k' e0 r0 he0 h0 hc
    dsimp only at he0 h0 ⊢
    by_cases hk' : k' = k
    · rw [hk', upd_self] at he0
      cases he0
      rw [hrec, upd_self] at h0
      cases h0
      exact hcomp hc
    · rw [upd_ne _ hk'] at he0
      have hj0 : e0.recIdx ≠ e.recIdx := by
        intro h
        exact hk' (hs.execUnique k' k e0 e he0 he h)
      rw [upd_ne _ hj0] at h0
      exact hs.completedBody k' e0 r0 he0 h0 hc
  · intro k' e0 r0 he0 h0 hdc hpe
    dsimp only at he0 h0 ⊢
    by_cases hk' : k' = k
    · rw [hk', upd_self] at he0
      cases he0
      rw [hrec, upd_self] at h0
      cases h0
      exact hdone hdc hpe
    · rw [upd_ne _ hk'] at he0
      have hj0 : e0.recIdx ≠ e.recIdx := by
        intro h
        exact hk' (hs.execUnique k' k e0 e he0 he h)
      rw [upd_ne _ hj0] at h0
      exact hs.doneBody k' e0 r0 he0 h0 hdc hpe
  · intro i j0 v er hcall
    dsimp only at hcall ⊢
    by_cases hj0 : j0 = e.recIdx
    · subst hj0
      obtain ⟨hres, herr, hdisj⟩ := hfin i v er hcall
      exact ⟨r', by rw [upd_self], hres, herr, hdisj⟩
    · obtain ⟨r0, hr0, hres, herr, hdisj⟩ := hs.finishedResult i j0 v er hcall
      refine ⟨r0, ?_, hres, herr, hdisj⟩
      rw [upd_ne _ hj0]
      exact hr0

end Funnel

namespace Funnel

/-- Changing only the executor's program counter (records untouched)
preserves the invariant. -/
theorem inv_exec_phase_only {s : FunnelState} (hs : Inv s) {k : Nat} {e : ExecThread}
    (he : s.execs k = some e) {r : OpRecord} (hr : s.records e.recIdx = some r)
    (e' : ExecThread) (hrec : e'.recIdx = e.recIdx)
    (hinv' : r.invCount = if e'.phase = ExecPhase.toRun then 0 else 1)
    (hphR : e'.phase = ExecPhase.toRun →
      r.completed = false ∧ r.doneClosed = false ∧ r.panicErr = none)
    (hphS : e'.phase = ExecPhase.toSetCompleted →
      r.completed = false ∧ r.doneClosed = false ∧ r.panicErr = none ∧
      bodyRes e'.body = some (r.res, r.err))
    (hphC : ∀ pend, e'.phase = ExecPhase.toClose pend →
      r.doneClosed = false ∧ r.panicErr = none ∧
      (pend = none → r.completed = true ∧ bodyRes e'.body = some (r.res, r.err)) ∧
      (∀ p, pend = some p → e'.body = BodyCode.panics p ∧ r.completed = false))
    (hcomp : r.completed = true → bodyRes e'.body = some (r.res, r.err))
    (hdone : r.doneClosed = true → r.panicErr = none →
      bodyRes e'.body = some (r.res, r.err)) :
    Inv { s with execs := upd s.execs k e' } := by
  have hrecs : upd s.records e.recIdx r = s.records := by
    funext j0
    by_cases hj0 : j0 = e.recIdx
    · rw [hj0, upd_self, hr]
    · rw [upd_ne _ hj0]
  have hfin : ∀ i v er, s.callers i = some (CallerPhase.finished e.recIdx false v er) →
      r.res = v ∧ r.err = er ∧
      (r.completed = true ∨ (r.doneClosed = true ∧ r.panicErr = none)) := by
    intro i v er hcall
    obtain ⟨r0, hr0, hres, herr, hdisj⟩ := hs.finishedResult i _ v er hcall
    rw [hr] at hr0
    cases hr0
    exact ⟨hres, herr, hdisj⟩
  have h := inv_exec_upd hs he hr r e' s.ttls s.ttlCount hrec rfl rfl hinv'
    hphR hphS hphC hcomp hdone hfin
  rw [hrecs] at h
  exact h

/-- The miss path of `getOperationInProcess`: inserting a fresh record with
its executor and moving the caller to `wait` preserves the invariant. -/
theorem inv_create {s : FunnelState} (hs : Inv s) (i : Nat) (id : String) (body : BodyCode)
    (hreg : s.registry id = none) :
    Inv { s with
      recCount := s.recCount + 1,
      records := upd s.records s.recCount
        { operationId := id, res := none, err := none, panicErr := none,
          deleted := false, completed := false, doneClosed := false,
          startTime := s.now, invCount := 0 },
      registry := fun id' => if id' = id then some s.recCount else s.registry id',
      execs := upd s.execs s.execCount
        { recIdx := s.recCount, body := body, phase := ExecPhase.toRun },
      execCount := s.execCount + 1,
      callers := upd s.callers i (CallerPhase.waiting s.recCount s.now) } := by
  have hrecnone : s.records s.recCount = none := hs.recBound _ (Nat.le_refl _)
  have hexecnone : s.execs s.execCount = none := hs.execBound _ (Nat.le_refl _)
  have hreclt : ∀ j0 r0, s.records j0 = some r0 → j0 ≠ s.recCount := by
    intro j0 r0 h0 hj
    rw [hj, hrecnone] at h0
    cases h0
  have hexeclt : ∀ k0 e0, s.execs k0 = some e0 → k0 ≠ s.execCount := by
    intro k0 e0 h0 hk
    rw [hk, hexecnone] at h0
    cases h0
  have hexecrec : ∀ k0 e0, s.execs k0 = some e0 → e0.recIdx ≠ s.recCount := by
    intro k0 e0 h0 hj
    obtain ⟨r0, hr0⟩ := hs.execRecValid k0 e0 h0
    rw [hj, hrecnone] at hr0
    cases hr0
  constructor
  · intro j' hj'
    dsimp only
    have h1 : j' ≠ s.recCount := by
      intro h
      rw [h] at hj'
      exact absurd hj' (by simp)
    rw [upd_ne _ h1]
    exact hs.recBound j' (Nat.le_of_succ_le hj')
  · intro id' j0 h0
    dsimp only at h0 ⊢
    split_ifs at h0 with hid'
    · cases h0
      subst hid'
      exact ⟨_, upd_self _ _ _, rfl, rfl⟩
    · obtain ⟨r0, hr0, hid0, hdel0⟩ := hs.regSound id' j0 h0
      refine ⟨r0, ?_, hid0, hdel0⟩
      rw [upd_ne _ (hreclt j0 r0 hr0)]
      exact hr0
  · intro j0 r0 h0 hd0
    dsimp only at h0 ⊢
    by_cases hj0 : j0 = s.recCount
    · subst hj0
      rw [upd_self] at h0
      cases h0
      rw [if_pos rfl]
    · rw [upd_ne _ hj0] at h0
      have hold := hs.recRegistered j0 r0 h0 hd0
      have hidne : ¬ r0.operationId = id := by
        intro heq
        rw [heq, hreg] at hold
        cases hold
      rw [if_neg hidne]
      exact hold
  · intro k' hk'
    dsimp only
    have h1 : k' ≠ s.execCount := by
      intro h
      rw [h] at hk'
      exact absurd hk' (by simp)
    rw [upd_ne _ h1]
    exact hs.execBound k' (Nat.le_of_succ_le hk')
  · intro k' e0 he0
    dsimp only at he0 ⊢
    by_cases hk' : k' = s.execCount
    · rw [hk', upd_self] at he0
      cases he0
      exact ⟨_, upd_self _ _ _⟩
    · rw [upd_ne _ hk'] at he0
      obtain ⟨r0, hr0⟩ := hs.execRecValid k' e0 he0
      refine ⟨r0, ?_⟩
      rw [upd_ne _ (fun h => hexecrec k' e0 he0 h)]
      exact hr0
  · intro k1 k2 e1 e2 he1 he2 h12
    dsimp only at he1 he2
    by_cases hk1 : k1 = s.execCount <;> by_cases hk2 : k2 = s.execCount
    · rw [hk1, hk2]
    · rw [hk1, upd_self] at he1
      rw [upd_ne _ hk2] at he2
      cases he1
      exact absurd h12.symm (hexecrec k2 e2 he2)
    · rw [hk2, upd_self] at he2
      rw [upd_ne _ hk1] at he1
      cases he2
      exact absurd h12 (hexecrec k1 e1 he1)
    · rw [upd_ne _ hk1] at he1
      rw [upd_ne _ hk2] at he2
      exact hs.execUnique k1 k2 e1 e2 he1 he2 h12
  · intro j0 r0 h0
    dsimp only at h0 ⊢
    by_cases hj0 : j0 = s.recCount
    · exact ⟨s.execCount, _, upd_self _ _ _, hj0.symm⟩
    · rw [upd_ne _ hj0] at h0
      obtain ⟨k1, e1, he1, hrec1⟩ := hs.recHasExec j0 r0 h0
      exact ⟨k1, e1, by rw [upd_ne _ (hexeclt k1 e1 he1)]; exact he1, hrec1⟩
  · intro k' e0 r0 he0 h0
    dsimp only at he0 h0 ⊢
    by_cases hk' : k' = s.execCount
    · rw [hk', upd_self] at he0
      cases he0
      rw [upd_self] at h0
      cases h0
      rfl
    · rw [upd_ne _ hk'] at he0
      rw [upd_ne _ (hexecrec k' e0 he0)] at h0
      exact hs.invTracks k' e0 r0 he0 h0
  · intro k' e0 r0 he0 h0 hph
    dsimp only at he0 h0 ⊢
    by_cases hk' : k' = s.execCount
    · rw [hk', upd_self] at he0
      cases he0
      rw [upd_self] at h0
      cases h0
      exact ⟨rfl, rfl, rfl⟩
    · rw [upd_ne _ hk'] at he0
      rw [upd_ne _ (hexecrec k' e0 he0)] at h0
      exact hs.phaseRun k' e0 r0 he0 h0 hph
  · intro k' e0 r0 he0 h0 hph
    dsimp only at he0 h0 ⊢
    by_cases hk' : k' = s.execCount
    · rw [hk', upd_self] at he0
      cases he0
      cases hph
    · rw [upd_ne _ hk'] at he0
      rw [upd_ne _ (hexecrec k' e0 he0)] at h0
      exact hs.phaseSetC k' e0 r0 he0 h0 hph
  · intro k' e0 r0 pend he0 h0 hph
    dsimp only at he0 h0 ⊢
    by_cases hk' : k' = s.execCount
    · rw [hk', upd_self] at he0
      cases he0
      cases hph
    · rw [upd_ne _ hk'] at he0
      rw [upd_ne _ (hexecrec k' e0 he0)] at h0
      exact hs.phaseClose k' e0 r0 pend he0 h0 hph
  · intro k' e0 r0 he0 h0 hc
    dsimp only at he0 h0 ⊢
    by_cases hk' : k' = s.execCount
    · rw [hk', upd_self] at he0
      cases he0
      rw [upd_self] at h0
      cases h0
      cases hc
    · rw [upd_ne _ hk'] at he0
      rw [upd_ne _ (hexecrec k' e0 he0)] at h0
      exact hs.completedBody k' e0 r0 he0 h0 hc
  · intro k' e0 r0 he0 h0 hdc hpe
    dsimp only at he0 h0 ⊢
    by_cases hk' : k' = s.execCount
    · rw [hk', upd_self] at he0
      cases he0
      rw [upd_self] at h0
      cases h0
      cases hdc
    · rw [upd_ne _ hk'] at he0
      rw [upd_ne _ (hexecrec k' e0 he0)] at h0
      exact hs.doneBody k' e0 r0 he0 h0 hdc hpe
  · intro i' j0 v er hcall
    dsimp only at hcall ⊢
    by_cases hi : i' = i
    · rw [hi, upd_self] at hcall
      cases hcall
    · rw [upd_ne _ hi] at hcall
      obtain ⟨r0, hr0, hres, herr, hdisj⟩ := hs.finishedResult i' j0 v er hcall
      refine ⟨r0, ?_, hres, herr, hdisj⟩
      rw [upd_ne _ (hreclt j0 r0 hr0)]
      exact hr0

end Funnel

namespace Funnel

theorem inv_stepA (cfg : Config) {s : FunnelState} (hs : Inv s) (a : Action) :
    Inv (stepA cfg s a) := by
  cases a with
  | tick d =>
    simp only [stepA]
    cases hs
    constructor <;> assumption
  | callerStart i =>
    simp only [stepA]
    split
    · next id body heq =>
        split
        · next j hreg =>
            exact inv_callers_upd hs i _ (by intro j' v er h; cases h)
        · next hreg =>
            exact inv_create hs i id body hreg
    · exact hs
  | callerDone i =>
    simp only [stepA]
    split
    · next j jt heq =>
        split
        · next r hr =>
            split
            · next hdc =>
                split
                · next p hpe =>
                    exact inv_callers_upd hs i _ (by intro j' v er h; cases h)
                · next hpe =>
                    refine inv_callers_upd hs i _ ?_
                    intro j' v er h
                    cases h
                    exact ⟨r, hr, rfl, rfl, Or.inr ⟨hdc, hpe⟩⟩
            · exact hs
        · exact hs
    · exact hs
  | callerTimer i =>
    simp only [stepA]
    split
    · next j jt heq =>
        split
        · next r hr =>
            split
            · split
              · next hc =>
                  refine inv_callers_upd hs i _ ?_
                  intro j' v er h
                  cases h
                  exact ⟨r, hr, rfl, rfl, Or.inl hc⟩
              · exact inv_callers_upd hs i _ (by intro j' v er h; cases h)
            · exact hs
        · exact hs
    · exact hs
  | callerDelete i =>
    simp only [stepA]
    split
    · next j heq =>
        rw [show upd s.callers i (CallerPhase.finished j true none (some GoErr.timeoutErr))
              = upd (deleteOperation s j).callers i
                  (CallerPhase.finished j true none (some GoErr.timeoutErr)) from by
          rw [deleteOperation_callers]]
        exact inv_callers_upd (inv_deleteOperation hs j) i _ (by intro j' v er h; cases h)
    · exact hs
  | execRun k =>
    simp only [stepA]
    split
    · next e he =>
        split
        · next hphase =>
            split
            · next r hr =>
                have hRun := hs.phaseRun k e r he hr hphase
                have hTr := hs.invTracks k e r he hr
                have h0 : r.invCount = 0 := by rw [hTr, if_pos hphase]
                split
                · next v er hbody =>
                    refine inv_exec_upd hs he hr _ _ s.ttls s.ttlCount rfl rfl rfl
                      ?_ ?_ ?_ ?_ ?_ ?_ ?_
                    · show r.invCount + 1 = _
                      rw [h0]
                      rfl
                    · intro h
                      cases h
                    · intro _
                      refine ⟨hRun.1, hRun.2.1, hRun.2.2, ?_⟩
                      show bodyRes e.body = _
                      rw [hbody]
                      rfl
                    · intro pend h
                      cases h
                    · intro h
                      dsimp only at h
                      rw [hRun.1] at h
                      cases h
                    · intro h _
                      dsimp only at h
                      rw [hRun.2.1] at h
                      cases h
                    · intro i0 v0 er0 hcall
                      obtain ⟨r0, hr0, hres, herr, hdisj⟩ :=
                        hs.finishedResult i0 _ v0 er0 hcall
                      rw [hr] at hr0
                      cases hr0
                      rcases hdisj with hc | hd
                      · rw [hRun.1] at hc
                        cases hc
                      · rw [hRun.2.1] at hd
                        cases hd.1
                · next p hbody =>
                    refine inv_exec_upd hs he hr _ _ s.ttls s.ttlCount rfl rfl rfl
                      ?_ ?_ ?_ ?_ ?_ ?_ ?_
                    · show r.invCount + 1 = _
                      rw [h0]
                      rfl
                    · intro h
                      cases h
                    · intro h
                      cases h
                    · intro pend h
                      cases h
                      refine ⟨hRun.2.1, hRun.2.2, ?_, ?_⟩
                      · intro h
                        cases h
                      · intro p0 h
                        cases h
                        exact ⟨hbody, hRun.1⟩
                    · intro h
                      dsimp only at h
                      rw [hRun.1] at h
                      cases h
                    · intro h _
                      dsimp only at h
                      rw [hRun.2.1] at h
                      cases h
                    · intro i0 v0 er0 hcall
                      obtain ⟨r0, hr0, hres, herr, hdisj⟩ :=
                        hs.finishedResult i0 _ v0 er0 hcall
                      rw [hr] at hr0
                      cases hr0
                      rcases hdisj with hc | hd
                      · rw [hRun.1] at hc
                        cases hc
                      · rw [hRun.2.1] at hd
                        cases hd.1
            · exact hs
        · exact hs
    · exact hs
  | execComplete k =>
    simp only [stepA]
    split
    · next e he =>
        split
        · next hphase =>
            split
            · next r hr =>
                have hS := hs.phaseSetC k e r he hr hphase
                have hTr := hs.invTracks k e r he hr
                have h1 : r.invCount = 1 := by
                  rw [hTr, if_neg]
                  rw [hphase]
                  intro h
                  cases h
                refine inv_exec_upd hs he hr _ _ s.ttls s.ttlCount rfl rfl rfl
                  ?_ ?_ ?_ ?_ ?_ ?_ ?_
                · show r.invCount = _
                  rw [h1]
                  rfl
                · intro h
                  cases h
                · intro h
                  cases h
                · intro pend h
                  cases h
                  refine ⟨hS.2.1, hS.2.2.1, ?_, ?_⟩
                  · intro _
                    exact ⟨rfl, hS.2.2.2⟩
                  · intro p0 h
                    cases h
                · intro _
                  exact hS.2.2.2
                · intro h _
                  dsimp only at h
                  rw [hS.2.1] at h
                  cases h
                · intro i0 v0 er0 hcall
                  obtain ⟨r0, hr0, hres, herr, hdisj⟩ :=
                    hs.finishedResult i0 _ v0 er0 hcall
                  rw [hr] at hr0
                  cases hr0
                  rcases hdisj with hc | hd
                  · rw [hS.1] at hc
                    cases hc
                  · rw [hS.2.1] at hd
                    cases hd.1
            · exact hs
        · exact hs
    · exact hs
  | execClose k =>
    simp only [stepA]
    split
    · next e he =>
        split
        · next pend hphase =>
            split
            · next r hr =>
                have hC := hs.phaseClose k e r pend he hr hphase
                have hTr := hs.invTracks k e r he hr
                have h1 : r.invCount = 1 := by
                  rw [hTr, if_neg]
                  rw [hphase]
                  intro h
                  cases h
                split
                · next hdel =>
                    refine inv_exec_phase_only hs he hr _ rfl ?_ ?_ ?_ ?_ ?_ ?_
                    · rw [h1, if_neg]
                      intro h
                      cases h
                    · intro h
                      cases h
                    · intro h
                      cases h
                    · intro pend0 h
                      cases h
                    · intro h
                      exact hs.completedBody k e r he hr h
                    · intro h h'
                      exact hs.doneBody k e r he hr h h'
                · next hdel =>
                    cases pend with
                    | none =>
                      refine inv_exec_upd hs he hr _ _ _ _ rfl rfl rfl
                        ?_ ?_ ?_ ?_ ?_ ?_ ?_
                      · show r.invCount = _
                        rw [h1]
                        rfl
                      · intro h
                        cases h
                      · intro h
                        cases h
                      · intro pend0 h
                        cases h
                      · intro h
                        exact hs.completedBody k e r he hr h
                      · intro _ hpe
                        exact (hC.2.2.1 rfl).2
                      · intro i0 v0 er0 hcall
                        obtain ⟨r0, hr0, hres, herr, hdisj⟩ :=
                          hs.finishedResult i0 _ v0 er0 hcall
                        rw [hr] at hr0
                        cases hr0
                        rcases hdisj with hc | hd
                        · exact ⟨hres, herr, Or.inl hc⟩
                        · rw [hC.1] at hd
                          cases hd.1
                    | some p =>
                      refine inv_exec_upd hs he hr _ _ _ _ rfl rfl rfl
                        ?_ ?_ ?_ ?_ ?_ ?_ ?_
                      · show r.invCount = _
                        rw [h1]
                        rfl
                      · intro h
                        cases h
                      · intro h
                        cases h
                      · intro pend0 h
                        cases h
                      · intro h
                        dsimp only at h
                        rw [(hC.2.2.2 p rfl).2] at h
                        cases h
                      · intro _ hpe
                        cases hpe
                      · intro i0 v0 er0 hcall
                        obtain ⟨r0, hr0, hres, herr, hdisj⟩ :=
                          hs.finishedResult i0 _ v0 er0 hcall
                        rw [hr] at hr0
                        cases hr0
                        rcases hdisj with hc | hd
                        · rw [(hC.2.2.2 p rfl).2] at hc
                          cases hc
                        · rw [hC.1] at hd
                          cases hd.1
            · exact hs
        · exact hs
    · exact hs
  | ttlFire m =>
    simp only [stepA]
    split
    · next t ht =>
        split
        · have h := inv_deleteOperation hs t.recIdx
          cases h
          constructor <;> assumption
        · exact hs
    · exact hs

end Funnel

namespace Funnel

theorem reach_inv {cfg : Config} {s : FunnelState} (h : Reach cfg s) : Inv s := by
  induction h with
  | init calls => exact inv_initState calls
  | step a _ ih => exact inv_stepA cfg ih a

theorem run_cons (cfg : Config) (s : FunnelState) (a : Action) (acts : List Action) :
    run cfg s (a :: acts) = run cfg (stepA cfg s a) acts := rfl

theorem reach_run (cfg : Config) {s : FunnelState} (h : Reach cfg s) :
    ∀ acts : List Action, Reach cfg (run cfg s acts) := by
  intro acts
  induction acts generalizing s with
  | nil => exact h
  | cons a rest ih => exact ih (Reach.step a h)

theorem stepA_config_eq {c1 c2 : Config} (ht : c1.timeout = c2.timeout)
    (hc : c1.cacheTtl = c2.cacheTtl) (s : FunnelState) (a : Action) :
    stepA c1 s a = stepA c2 s a := by
  cases a <;> simp only [stepA, ht, hc]

theorem run_config_eq {c1 c2 : Config} (ht : c1.timeout = c2.timeout)
    (hc : c1.cacheTtl = c2.cacheTtl) (s : FunnelState) (acts : List Action) :
    run c1 s acts = run c2 s acts := by
  induction acts generalizing s with
  | nil => rfl
  | cons a rest ih =>
    rw [run_cons, run_cons, stepA_config_eq ht hc]
    exact ih _

end Funnel

namespace Funnel

/-- C5: `wait` grants `remaining = callerTimeout − (now − startTime)` (which is
non-positive for a late joiner), so every waiter's timer fires at the shared
absolute instant `startTime + timeout`, independent of its join time, and a
late joiner's timer fires immediately rather than after a fresh full window. -/
theorem wait_shared_absolute_deadline (timeout startTime joinTime : Int)
    (hjoin : startTime ≤ joinTime) :
    (joinTime + operationTimeoutRemaining timeout startTime joinTime
      = startTime + timeout) ∧
    (startTime + timeout ≤ joinTime →
      operationTimeoutRemaining timeout startTime joinTime ≤ 0 ∧
      timerFireTime timeout startTime joinTime = joinTime) ∧
    (joinTime ≤ startTime + timeout →
      timerFireTime timeout startTime joinTime = startTime + timeout) := by
  unfold timerFireTime operationTimeoutRemaining operationElapsedTime
  refine ⟨by omega, fun h => ⟨by omega, ?_⟩, fun h => ?_⟩ <;> omega

/-- C5 witness: a waiter joining 30 time units after a record started with a
500-unit timeout fires at the shared absolute deadline 500, and a waiter
joining at 700 gets a non-positive remaining budget and fires immediately. -/
theorem wait_shared_absolute_deadline_witness :
    ((30 : Int) + operationTimeoutRemaining 500 0 30 = 0 + 500) ∧
    (timerFireTime 500 0 30 = 0 + 500) ∧
    (operationTimeoutRemaining 500 0 700 ≤ 0 ∧ timerFireTime 500 0 700 = 700) :=
  ⟨(wait_shared_absolute_deadline 500 0 30 (by decide)).1,
   (wait_shared_absolute_deadline 500 0 30 (by decide)).2.2 (by decide),
   (wait_shared_absolute_deadline 500 0 700 (by decide)).2.1 (by decide)⟩

/-- C7: the `shouldCache` predicate accepted by `WithShouldCachePredicate` is
never consulted: two configurations that agree on `timeout` and `cacheTtl`
(so in particular two differing only in the predicate) generate identical
behaviour on every state and schedule, and adding the predicate option to
`New` changes neither consulted field. -/
theorem shouldCachePredicate_never_consulted :
    (∀ c1 c2 : Config, c1.timeout = c2.timeout → c1.cacheTtl = c2.cacheTtl →
      ∀ (s : FunnelState) (acts : List Action), run c1 s acts = run c2 s acts) ∧
    (∀ (opts : List (Config → Config)) (p : Option Nat → Option GoErr → Bool),
      (New (opts ++ [WithShouldCachePredicate p])).timeout = (New opts).timeout ∧
      (New (opts ++ [WithShouldCachePredicate p])).cacheTtl = (New opts).cacheTtl) ∧
    (∀ (opts : List (Config → Config)) (p : Option Nat → Option GoErr → Bool)
      (s : FunnelState) (acts : List Action),
      run (New (opts ++ [WithShouldCachePredicate p])) s acts = run (New opts) s acts) := by
  have hNew : ∀ (opts : List (Config → Config)) (p : Option Nat → Option GoErr → Bool),
      (New (opts ++ [WithShouldCachePredicate p])).timeout = (New opts).timeout ∧
      (New (opts ++ [WithShouldCachePredicate p])).cacheTtl = (New opts).cacheTtl := by
    intro opts p
    simp [New, WithShouldCachePredicate, List.foldl_append]
  exact ⟨fun c1 c2 ht hc => run_config_eq ht hc,
    hNew,
    fun opts p s acts => run_config_eq (hNew opts p).1 (hNew opts p).2 s acts⟩

/-- C7 witness: a funnel built with a constantly-false caching predicate runs
one concrete schedule to exactly the same state as one built without it. -/
theorem shouldCachePredicate_never_consulted_witness :
    run (New ([] ++ [WithShouldCachePredicate (fun _ _ => false)]))
        (initState [("a", BodyCode.returns (some 5) none)])
        [Action.callerStart 0, Action.execRun 0]
      = run (New [])
        (initState [("a", BodyCode.returns (some 5) none)])
        [Action.callerStart 0, Action.execRun 0] :=
  shouldCachePredicate_never_consulted.2.2 [] (fun _ _ => false) _ _

end Funnel

namespace Funnel

theorem deleteOperation_deleted {s : FunnelState} {j : Nat} {r : OpRecord}
    (hr : s.records j = some r) (hdel : r.deleted = true) :
    deleteOperation s j = s := by
  unfold deleteOperation
  rw [hr]
  dsimp only
  rw [if_pos hdel]

theorem deleteOperation_live {s : FunnelState} {j : Nat} {r : OpRecord}
    (hr : s.records j = some r) (hdel : r.deleted = false) :
    deleteOperation s j = { s with
      registry := fun id => if id = r.operationId then none else s.registry id,
      records := upd s.records j { r with deleted := true } } := by
  unfold deleteOperation
  rw [hr]
  dsimp only
  rw [if_neg (by simp [hdel])]

/-- C2: in every reachable state, `deleteOperation` behaves exactly like a
compare-and-delete: it removes precisely the registry mapping whose current
entry is the record being evicted (leaving every other mapping untouched),
and when the current entry for the record's id is not this record — in
particular when a newer record was created later under the same id — it is a
complete no-op.  The `deleted`-flag guard set atomically with the removal
makes the id-keyed `delete` observationally equal to a compare-and-delete. -/
theorem deleteOperation_compare_and_delete {cfg : Config} {s : FunnelState}
    (hreach : Reach cfg s) (j : Nat) (r : OpRecord) (hr : s.records j = some r) :
    (∀ id, (deleteOperation s j).registry id
        = if s.registry id = some j then none else s.registry id) ∧
    (∀ j', j' ≠ j → (deleteOperation s j).records j' = s.records j') ∧
    (s.registry r.operationId ≠ some j → deleteOperation s j = s) := by
  have hs := reach_inv hreach
  have hnotj : r.deleted = true → ∀ id, s.registry id ≠ some j := by
    intro hdel id hid
    obtain ⟨r0, hr0, _, hdel0⟩ := hs.regSound id j hid
    rw [hr] at hr0
    cases hr0
    rw [hdel] at hdel0
    cases hdel0
  refine ⟨?_, fun j' h => deleteOperation_records_ne s j j' h, ?_⟩
  · intro id
    cases hdel : r.deleted with
    | true =>
      rw [deleteOperation_deleted hr hdel, if_neg (hnotj hdel id)]
    | false =>
      rw [deleteOperation_live hr hdel]
      dsimp only
      by_cases hid : id = r.operationId
      · rw [if_pos hid, hid, if_pos (hs.recRegistered j r hr hdel)]
      · rw [if_neg hid, if_neg]
        intro h
        obtain ⟨r0, hr0, hid0, _⟩ := hs.regSound id j h
        rw [hr] at hr0
        cases hr0
        exact hid hid0.symm
  · intro hne
    have hdel : r.deleted = true := by
      cases hdel : r.deleted with
      | true => rfl
      | false => exact absurd (hs.recRegistered j r hr hdel) hne
    exact deleteOperation_deleted hr hdel

/-- C2 witness: in the concrete reachable state holding one live record for
id "a", `deleteOperation` removes exactly that record's mapping. -/
theorem deleteOperation_compare_and_delete_witness :
    (∀ id,
      (deleteOperation
        (stepA (New []) (initState [("a", BodyCode.returns (some 5) none)])
          (Action.callerStart 0)) 0).registry id
      = if (stepA (New []) (initState [("a", BodyCode.returns (some 5) none)])
            (Action.callerStart 0)).registry id = some 0 then none
        else (stepA (New []) (initState [("a", BodyCode.returns (some 5) none)])
            (Action.callerStart 0)).registry id) ∧
    (∀ j', j' ≠ 0 →
      (deleteOperation
        (stepA (New []) (initState [("a", BodyCode.returns (some 5) none)])
          (Action.callerStart 0)) 0).records j'
      = (stepA (New []) (initState [("a", BodyCode.returns (some 5) none)])
          (Action.callerStart 0)).records j') ∧
    ((stepA (New []) (initState [("a", BodyCode.returns (some 5) none)])
        (Action.callerStart 0)).registry ("a") ≠ some 0 →
      deleteOperation
        (stepA (New []) (initState [("a", BodyCode.returns (some 5) none)])
          (Action.callerStart 0)) 0
      = stepA (New []) (initState [("a", BodyCode.returns (some 5) none)])
          (Action.callerStart 0)) :=
  deleteOperation_compare_and_delete
    (Reach.step (Action.callerStart 0) (Reach.init [("a", BodyCode.returns (some 5) none)]))
    0 { operationId := "a", res := none, err := none, panicErr := none,
        deleted := false, completed := false, doneClosed := false,
        startTime := 0, invCount := 0 }
    (by rfl)

end Funnel

namespace Funnel

theorem deleteOperation_keeps_deleted {s : FunnelState} {j : Nat} {r : OpRecord}
    (hr : s.records j = some r) (hdel : r.deleted = true) (j0 : Nat) :
    (deleteOperation s j0).records j = some r := by
  by_cases h : j = j0
  · subst h
    rw [deleteOperation_deleted hr hdel]
    exact hr
  · rw [deleteOperation_records_ne s j0 j h]
    exact hr

/-- One step never unsets a record's `deleted` flag and never replaces a
deleted record. -/
theorem deleted_persists_step (cfg : Config) {s : FunnelState} (hs : Inv s)
    {j : Nat} {r : OpRecord} (hr : s.records j = some r) (hdel : r.deleted = true)
    (a : Action) :
    ∃ r', (stepA cfg s a).records j = some r' ∧ r'.deleted = true := by
  have hjlt : ¬ s.recCount ≤ j := by
    intro h
    rw [hs.recBound j h] at hr
    cases hr
  cases a with
  | tick d => exact ⟨r, hr, hdel⟩
  | callerStart i =>
    simp only [stepA]
    split
    · next id body heq =>
        split
        · exact ⟨r, hr, hdel⟩
        · refine ⟨r, ?_, hdel⟩
          show upd s.records s.recCount _ j = some r
          rw [upd_ne _ (by rintro rfl; exact hjlt (Nat.le_refl _))]
          exact hr
    · exact ⟨r, hr, hdel⟩
  | callerDone i =>
    simp only [stepA]
    repeat' split
    all_goals exact ⟨r, hr, hdel⟩
  | callerTimer i =>
    simp only [stepA]
    repeat' split
    all_goals exact ⟨r, hr, hdel⟩
  | callerDelete i =>
    simp only [stepA]
    split
    · next j0 heq =>
        exact ⟨r, deleteOperation_keeps_deleted hr hdel j0, hdel⟩
    · exact ⟨r, hr, hdel⟩
  | execRun k =>
    simp only [stepA]
    split
    · next e he =>
        split
        · next hphase =>
            split
            · next r0 hr0 =>
                split
                · next v er hbody =>
                    by_cases hj : j = e.recIdx
                    · subst hj
                      rw [hr] at hr0
                      cases hr0
                      refine ⟨_, upd_self _ _ _, ?_⟩
                      exact hdel
                    · refine ⟨r, ?_, hdel⟩
                      show upd s.records e.recIdx _ j = some r
                      rw [upd_ne _ hj]
                      exact hr
                · next p hbody =>
                    by_cases hj : j = e.recIdx
                    · subst hj
                      rw [hr] at hr0
                      cases hr0
                      refine ⟨_, upd_self _ _ _, ?_⟩
                      exact hdel
                    · refine ⟨r, ?_, hdel⟩
                      show upd s.records e.recIdx _ j = some r
                      rw [upd_ne _ hj]
                      exact hr
            · exact ⟨r, hr, hdel⟩
        · exact ⟨r, hr, hdel⟩
    · exact ⟨r, hr, hdel⟩
  | execComplete k =>
    simp only [stepA]
    split
    · next e he =>
        split
        · next hphase =>
            split
            · next r0 hr0 =>
                by_cases hj : j = e.recIdx
                · subst hj
                  rw [hr] at hr0
                  cases hr0
                  refine ⟨_, upd_self _ _ _, ?_⟩
                  exact hdel
                · refine ⟨r, ?_, hdel⟩
                  show upd s.records e.recIdx _ j = some r
                  rw [upd_ne _ hj]
                  exact hr
            · exact ⟨r, hr, hdel⟩
        · exact ⟨r, hr, hdel⟩
    · exact ⟨r, hr, hdel⟩
  | execClose k =>
    simp only [stepA]
    split
    · next e he =>
        split
        · next pend hphase =>
            split
            · next r0 hr0 =>
                split
                · exact ⟨r, hr, hdel⟩
                · next hdel0 =>
                    by_cases hj : j = e.recIdx
                    · subst hj
                      rw [hr] at hr0
                      cases hr0
                      rw [hdel] at hdel0
                      exact absurd rfl hdel0
                    · refine ⟨r, ?_, hdel⟩
                      show upd s.records e.recIdx _ j = some r
                      rw [upd_ne _ hj]
                      exact hr
            · exact ⟨r, hr, hdel⟩
        · exact ⟨r, hr, hdel⟩
    · exact ⟨r, hr, hdel⟩
  | ttlFire m =>
    simp only [stepA]
    split
    · next t ht =>
        split
        · exact ⟨r, deleteOperation_keeps_deleted hr hdel t.recIdx, hdel⟩
        · exact ⟨r, hr, hdel⟩
    · exact ⟨r, hr, hdel⟩

theorem deleted_persists_run (cfg : Config) (acts : List Action) :
    ∀ {s : FunnelState}, Inv s → ∀ {j : Nat} {r : OpRecord},
      s.records j = some r → r.deleted = true →
      ∃ r', (run cfg s acts).records j = some r' ∧ r'.deleted = true := by
  induction acts with
  | nil =>
    intro s _ j r hr hdel
    exact ⟨r, hr, hdel⟩
  | cons a rest ih =>
    intro s hs j r hr hdel
    obtain ⟨r1, hr1, hdel1⟩ := deleted_persists_step cfg hs hr hdel a
    exact ih (inv_stepA cfg hs a) hr1 hdel1

/-- C9: a record leaves the registry at most once.  Once its `deleted` flag is
set, after any further schedule of steps (covering every later caller-timeout
eviction and the delayed cache-TTL eviction) the flag is still set and
`deleteOperation` on that record is a complete no-op, leaving the whole state
— in particular the registry map — untouched. -/
theorem record_removed_at_most_once {cfg : Config} {s : FunnelState}
    (hreach : Reach cfg s) (j : Nat) (r : OpRecord)
    (hr : s.records j = some r) (hdel : r.deleted = true) :
    ∀ acts : List Action,
      (∃ r', (run cfg s acts).records j = some r' ∧ r'.deleted = true) ∧
      deleteOperation (run cfg s acts) j = run cfg s acts := by
  intro acts
  obtain ⟨r', hr', hdel'⟩ := deleted_persists_run cfg acts (reach_inv hreach) hr hdel
  exact ⟨⟨r', hr', hdel'⟩, deleteOperation_deleted hr' hdel'⟩

end Funnel

namespace Funnel

/-- Configuration with a zero caller timeout. -/
def cfg0 : Config := New [WithTimeout 0]

def callsOne : List (String × BodyCode) := [("a", BodyCode.returns (some 1) none)]

/-- Concrete reachable state in which record 0 has been evicted by a
timed-out waiter: its `deleted` flag is set. -/
def sDel : FunnelState :=
  run cfg0 (initState callsOne)
    [Action.callerStart 0, Action.callerTimer 0, Action.callerDelete 0]

theorem reach_sDel : Reach cfg0 sDel :=
  reach_run cfg0 (Reach.init callsOne)
    [Action.callerStart 0, Action.callerTimer 0, Action.callerDelete 0]

/-- C9 witness: for the concrete evicted record, after the executor finishes
its remaining steps the flag is still set and `deleteOperation` is a no-op. -/
theorem record_removed_at_most_once_witness :
    (∃ r', (run cfg0 sDel [Action.execRun 0, Action.execClose 0]).records 0 = some r' ∧
      r'.deleted = true) ∧
    deleteOperation (run cfg0 sDel [Action.execRun 0, Action.execClose 0]) 0
      = run cfg0 sDel [Action.execRun 0, Action.execClose 0] :=
  record_removed_at_most_once reach_sDel 0
    { operationId := "a", res := none, err := none, panicErr := none,
      deleted := true, completed := false, doneClosed := false,
      startTime := 0, invCount := 0 }
    (by rfl) (by rfl) [Action.execRun 0, Action.execClose 0]

/-- C1 (amended): for concurrent `Execute` calls coalesced onto one record
generation, the operation body is invoked at most once, and every call that
does not time out returns the same `(value, error)` pair — the pair produced
by that record's single body invocation.  (A call whose deadline elapses
first instead returns the `(nil, timeoutError)` sentinel; see the
counterexample.) -/
theorem coalesced_execution {cfg : Config} {s : FunnelState} (hreach : Reach cfg s) :
    (∀ j r, s.records j = some r → r.invCount ≤ 1) ∧
    (∀ i1 i2 j v1 er1 v2 er2,
      s.callers i1 = some (CallerPhase.finished j false v1 er1) →
      s.callers i2 = some (CallerPhase.finished j false v2 er2) →
      v1 = v2 ∧ er1 = er2) ∧
    (∀ i j v er, s.callers i = some (CallerPhase.finished j false v er) →
      ∃ k e, s.execs k = some e ∧ e.recIdx = j ∧ bodyRes e.body = some (v, er)) := by
  have hs := reach_inv hreach
  refine ⟨?_, ?_, ?_⟩
  · intro j r hr
    obtain ⟨k, e, he, hrec⟩ := hs.recHasExec j r hr
    have ht := hs.invTracks k e r he (by rw [hrec]; exact hr)
    rw [ht]
    split <;> omega
  · intro i1 i2 j v1 er1 v2 er2 h1 h2
    obtain ⟨r1, hr1, hres1, herr1, _⟩ := hs.finishedResult i1 j v1 er1 h1
    obtain ⟨r2, hr2, hres2, herr2, _⟩ := hs.finishedResult i2 j v2 er2 h2
    rw [hr1] at hr2
    cases hr2
    rw [← hres1, ← herr1, hres2, herr2]
    exact ⟨rfl, rfl⟩
  · intro i j v er hc
    obtain ⟨r, hr, hres, herr, hdisj⟩ := hs.finishedResult i j v er hc
    obtain ⟨k, e, he, hrec⟩ := hs.recHasExec j r hr
    have hr' : s.records e.recIdx = some r := by rw [hrec]; exact hr
    rcases hdisj with hcomp | ⟨hdone, hpe⟩
    · refine ⟨k, e, he, hrec, ?_⟩
      rw [← hres, ← herr]
      exact hs.completedBody k e r he hr' hcomp
    · refine ⟨k, e, he, hrec, ?_⟩
      rw [← hres, ← herr]
      exact hs.doneBody k e r he hr' hdone hpe

def cfgT10 : Config := New [WithTimeout 10]

def callsTwo : List (String × BodyCode) :=
  [("a", BodyCode.returns (some 5) none), ("a", BodyCode.returns (some 7) none)]

def schedRace : List Action :=
  [Action.callerStart 0, Action.callerStart 1, Action.tick 10,
   Action.callerTimer 1, Action.callerDelete 1,
   Action.execRun 0, Action.execComplete 0, Action.execClose 0,
   Action.callerTimer 0]

/-- Concrete interleaving: two `Execute` calls for id "a" join record 0;
caller 1's deadline fires while the operation is still pending, caller 0
observes the completed result at its own deadline. -/
def sRace : FunnelState := run cfgT10 (initState callsTwo) schedRace

/-- C1 counterexample: two concurrent `Execute` calls join the same live
record generation (record 0), yet return different `(value, error)` pairs:
caller 0 gets `(5, nil)` while caller 1, whose deadline elapsed first, gets
`(nil, timeoutError)`.  So "every one of the N calls returns the same
(value, error) pair" fails as stated. -/
theorem coalesced_execution_counterexample :
    sRace.callers 0 = some (CallerPhase.finished 0 false (some 5) none) ∧
    sRace.callers 1 = some (CallerPhase.finished 0 true none (some GoErr.timeoutErr)) ∧
    ¬ ((some 5 : Option Nat) = (none : Option Nat) ∧
       (none : Option GoErr) = some GoErr.timeoutErr) := by
  exact ⟨by decide, by decide, by decide⟩

/-- C1 witness: the amended statement applied to the concrete race state. -/
theorem coalesced_execution_witness :
    (∀ j r, sRace.records j = some r → r.invCount ≤ 1) ∧
    (∀ i1 i2 j v1 er1 v2 er2,
      sRace.callers i1 = some (CallerPhase.finished j false v1 er1) →
      sRace.callers i2 = some (CallerPhase.finished j false v2 er2) →
      v1 = v2 ∧ er1 = er2) ∧
    (∀ i j v er, sRace.callers i = some (CallerPhase.finished j false v er) →
      ∃ k e, sRace.execs k = some e ∧ e.recIdx = j ∧ bodyRes e.body = some (v, er)) :=
  coalesced_execution (reach_run cfgT10 (Reach.init callsTwo) schedRace)

end Funnel

namespace Funnel

/-- C4: when the deadline timer fires before the completion signal is
observed, `wait` re-checks `completedFlag`: if it is set the caller receives
the record's real `(value, error)` — the pair the single body invocation
produced — and otherwise `wait` returns the timeout sentinel with a nil
value (`Execute` then finishing with `(nil, timeoutError)`). -/
theorem wait_timer_rechecks_completed {cfg : Config} {s : FunnelState}
    (hreach : Reach cfg s) (i j : Nat) (jt : Int) (r : OpRecord)
    (hc : s.callers i = some (CallerPhase.waiting j jt))
    (hr : s.records j = some r)
    (hfire : timerFireTime cfg.timeout r.startTime jt ≤ s.now) :
    (r.completed = true →
      (stepA cfg s (Action.callerTimer i)).callers i
        = some (CallerPhase.finished j false r.res r.err) ∧
      ∃ k e, s.execs k = some e ∧ e.recIdx = j ∧ bodyRes e.body = some (r.res, r.err)) ∧
    (r.completed = false →
      (stepA cfg s (Action.callerTimer i)).callers i = some (CallerPhase.timedOut j) ∧
      (stepA cfg (stepA cfg s (Action.callerTimer i)) (Action.callerDelete i)).callers i
        = some (CallerPhase.finished j true none (some GoErr.timeoutErr))) := by
  have hs := reach_inv hreach
  constructor
  · intro hcomp
    constructor
    · have h1 : stepA cfg s (Action.callerTimer i)
          = { s with callers := upd s.callers i (CallerPhase.finished j false r.res r.err) } := by
        simp only [stepA, hc, hr]
        rw [if_pos hfire, if_pos hcomp]
      rw [h1]
      exact upd_self _ _ _
    · obtain ⟨k, e, he, hrec⟩ := hs.recHasExec j r hr
      exact ⟨k, e, he, hrec,
        hs.completedBody k e r he (by rw [hrec]; exact hr) hcomp⟩
  · intro hcomp2
    have h1 : stepA cfg s (Action.callerTimer i)
        = { s with callers := upd s.callers i (CallerPhase.timedOut j) } := by
      simp only [stepA, hc, hr]
      rw [if_pos hfire, if_neg (by rw [hcomp2]; intro h; cases h)]
    constructor
    · rw [h1]
      exact upd_self _ _ _
    · rw [h1]
      simp only [stepA]
      rw [upd_self]
      exact upd_self _ _ _

def sTock : FunnelState := run cfg0 (initState callsOne) [Action.callerStart 0]

/-- C4 witness: with a zero timeout the timer fires immediately on the still
pending record; the caller times out and finishes with `(nil, timeoutError)`. -/
theorem wait_timer_rechecks_completed_witness :
    ((false : Bool) = true →
      (stepA cfg0 sTock (Action.callerTimer 0)).callers 0
        = some (CallerPhase.finished 0 false none none) ∧
      ∃ k e, sTock.execs k = some e ∧ e.recIdx = 0 ∧ bodyRes e.body = some (none, none)) ∧
    ((false : Bool) = false →
      (stepA cfg0 sTock (Action.callerTimer 0)).callers 0
        = some (CallerPhase.timedOut 0) ∧
      (stepA cfg0 (stepA cfg0 sTock (Action.callerTimer 0)) (Action.callerDelete 0)).callers 0
        = some (CallerPhase.finished 0 true none (some GoErr.timeoutErr))) :=
  wait_timer_rechecks_completed
    (reach_run cfg0 (Reach.init callsOne) [Action.callerStart 0])
    0 0 0
    { operationId := "a", res := none, err := none, panicErr := none,
      deleted := false, completed := false, doneClosed := false,
      startTime := 0, invCount := 0 }
    (by rfl) (by rfl) (by decide)

end Funnel

namespace Funnel

theorem deleteOperation_unregisters {s : FunnelState} (hs : Inv s) {j : Nat} {r : OpRecord}
    (hr : s.records j = some r) :
    ∀ id, (deleteOperation s j).registry id ≠ some j := by
  intro id
  cases hdel : r.deleted with
  | true =>
    rw [deleteOperation_deleted hr hdel]
    intro h
    obtain ⟨r0, hr0, _, hdel0⟩ := hs.regSound id j h
    rw [hr] at hr0
    cases hr0
    rw [hdel] at hdel0
    cases hdel0
  | false =>
    rw [deleteOperation_live hr hdel]
    dsimp only
    by_cases hid : id = r.operationId
    · rw [if_pos hid]
      intro h
      cases h
    · rw [if_neg hid]
      intro h
      obtain ⟨r0, hr0, hid0, _⟩ := hs.regSound id j h
      rw [hr] at hr0
      cases hr0
      exact hid hid0.symm

/-- C6: when a caller's `wait` returned the timeout sentinel, `Execute`'s very
next step removes the record from the registry (no id maps to it any more)
and returns `(nil, timeoutError)`; the eviction touches no executor thread
and no record field other than the evicted record's `deleted` flag, and the
still-pending executor can still run the operation body to completion,
writing its result into the (now unregistered) record. -/
theorem timeout_evicts_without_stopping_executor {cfg : Config} {s : FunnelState}
    (hreach : Reach cfg s) (i j : Nat) (r : OpRecord)
    (hto : s.callers i = some (CallerPhase.timedOut j))
    (hr : s.records j = some r) :
    (∀ id, (stepA cfg s (Action.callerDelete i)).registry id ≠ some j) ∧
    ((stepA cfg s (Action.callerDelete i)).callers i
      = some (CallerPhase.finished j true none (some GoErr.timeoutErr))) ∧
    ((stepA cfg s (Action.callerDelete i)).execs = s.execs) ∧
    (∀ j', j' ≠ j → (stepA cfg s (Action.callerDelete i)).records j' = s.records j') ∧
    (∃ r', (stepA cfg s (Action.callerDelete i)).records j = some r' ∧
      r'.res = r.res ∧ r'.err = r.err ∧ r'.completed = r.completed ∧
      r'.doneClosed = r.doneClosed ∧ r'.panicErr = r.panicErr ∧
      r'.invCount = r.invCount ∧ r'.operationId = r.operationId ∧
      r'.startTime = r.startTime) ∧
    (∀ k e, s.execs k = some e → e.recIdx = j → e.phase = ExecPhase.toRun →
      ∀ v er, e.body = BodyCode.returns v er →
        ∃ r'', (stepA cfg (stepA cfg s (Action.callerDelete i))
              (Action.execRun k)).records j = some r'' ∧
          r''.res = v ∧ r''.err = er.map GoErr.userErr ∧
          r''.invCount = r.invCount + 1) := by
  have hs := reach_inv hreach
  have h1 : stepA cfg s (Action.callerDelete i)
      = { deleteOperation s j with callers := (upd s.callers i
            (CallerPhase.finished j true none (some GoErr.timeoutErr))) } := by
    simp only [stepA, hto]
  have hrec' : ∃ r', (deleteOperation s j).records j = some r' ∧
      r'.res = r.res ∧ r'.err = r.err ∧ r'.completed = r.completed ∧
      r'.doneClosed = r.doneClosed ∧ r'.panicErr = r.panicErr ∧
      r'.invCount = r.invCount ∧ r'.operationId = r.operationId ∧
      r'.startTime = r.startTime := by
    cases hdel : r.deleted with
    | true =>
      rw [deleteOperation_deleted hr hdel]
      exact ⟨r, hr, rfl, rfl, rfl, rfl, rfl, rfl, rfl, rfl⟩
    | false =>
      rw [deleteOperation_live hr hdel]
      exact ⟨{ r with deleted := true }, upd_self _ _ _,
        rfl, rfl, rfl, rfl, rfl, rfl, rfl, rfl⟩
  refine ⟨?_, ?_, ?_, ?_, ?_, ?_⟩
  · intro id
    rw [h1]
    exact deleteOperation_unregisters hs hr id
  · rw [h1]
    exact upd_self _ _ _
  · rw [h1]
    exact deleteOperation_execs s j
  · intro j' hj'
    rw [h1]
    exact deleteOperation_records_ne s j j' hj'
  · rw [h1]
    exact hrec'
  · intro k e he hrec hph v er hbody
    subst hrec
    obtain ⟨r', hr', hres', herr', _, _, _, hinv', _, _⟩ := hrec'
    have he1 : (stepA cfg s (Action.callerDelete i)).execs k = some e := by
      rw [h1]
      show (deleteOperation s e.recIdx).execs k = some e
      rw [deleteOperation_execs]
      exact he
    have hr1 : (stepA cfg s (Action.callerDelete i)).records e.recIdx = some r' := by
      rw [h1]
      exact hr'
    refine ⟨({ r' with res := v, err := er.map GoErr.userErr, invCount := r'.invCount + 1 } : OpRecord), ?_, rfl, rfl, ?_⟩
    · generalize hgen : stepA cfg s (Action.callerDelete i) = s1 at he1 hr1 ⊢
      simp only [stepA, he1, hph, hr1, hbody]
      exact upd_self _ _ _
    · dsimp only
      rw [hinv']

end Funnel

namespace Funnel

def sTimed : FunnelState :=
  run cfg0 (initState callsOne) [Action.callerStart 0, Action.callerTimer 0]

/-- C6 witness: the concrete timed-out caller evicts record 0, the executor
thread is untouched and still runs the body to completion afterwards. -/
theorem timeout_evicts_without_stopping_executor_witness :
    (∀ id, (stepA cfg0 sTimed (Action.callerDelete 0)).registry id ≠ some 0) ∧
    ((stepA cfg0 sTimed (Action.callerDelete 0)).callers 0
      = some (CallerPhase.finished 0 true none (some GoErr.timeoutErr))) ∧
    ((stepA cfg0 sTimed (Action.callerDelete 0)).execs = sTimed.execs) ∧
    (∀ j', j' ≠ 0 → (stepA cfg0 sTimed (Action.callerDelete 0)).records j'
      = sTimed.records j') ∧
    (∃ r', (stepA cfg0 sTimed (Action.callerDelete 0)).records 0 = some r' ∧
      r'.res = none ∧ r'.err = none ∧ r'.completed = false ∧
      r'.doneClosed = false ∧ r'.panicErr = none ∧
      r'.invCount = 0 ∧ r'.operationId = "a" ∧ r'.startTime = 0) ∧
    (∀ k e, sTimed.execs k = some e → e.recIdx = 0 → e.phase = ExecPhase.toRun →
      ∀ v er, e.body = BodyCode.returns v er →
        ∃ r'', (stepA cfg0 (stepA cfg0 sTimed (Action.callerDelete 0))
              (Action.execRun k)).records 0 = some r'' ∧
          r''.res = v ∧ r''.err = er.map GoErr.userErr ∧ r''.invCount = 0 + 1) :=
  timeout_evicts_without_stopping_executor
    (reach_run cfg0 (Reach.init callsOne) [Action.callerStart 0, Action.callerTimer 0])
    0 0
    { operationId := "a", res := none, err := none, panicErr := none,
      deleted := false, completed := false, doneClosed := false,
      startTime := 0, invCount := 0 }
    (by rfl) (by rfl)

/-- C10: if the operation body panicked and the record's `deleted` flag is
already set when the deferred `closeOperation` runs, the cleanup returns
before calling `recover`: the record is untouched (the payload is never
captured into `panicErr`, which the invariant shows is still `none`, and the
`done` channel is never closed), no TTL eviction task is scheduled, and the
executor goroutine ends with the panic escaping unrecovered. -/
theorem panic_escapes_unrecovered_when_deleted {cfg : Config} {s : FunnelState}
    (hreach : Reach cfg s) (k : Nat) (e : ExecThread) (p : Nat)
    (he : s.execs k = some e) (hph : e.phase = ExecPhase.toClose (some p))
    (r : OpRecord) (hr : s.records e.recIdx = some r) (hdel : r.deleted = true) :
    r.panicErr = none ∧
    r.doneClosed = false ∧
    e.body = BodyCode.panics p ∧
    (stepA cfg s (Action.execClose k)).records = s.records ∧
    (stepA cfg s (Action.execClose k)).ttls = s.ttls ∧
    (stepA cfg s (Action.execClose k)).execs k
      = some { recIdx := e.recIdx, body := e.body, phase := ExecPhase.exited true } := by
  have hs := reach_inv hreach
  have hC := hs.phaseClose k e r (some p) he hr hph
  have h1 : stepA cfg s (Action.execClose k)
      = { s with execs := (upd s.execs k
          { recIdx := e.recIdx, body := e.body, phase := ExecPhase.exited true }) } := by
    simp only [stepA, he, hph, hr]
    rw [if_pos hdel]
    rfl
  refine ⟨hC.2.1, hC.1, (hC.2.2.2 p rfl).1, ?_, ?_, ?_⟩
  · rw [h1]
  · rw [h1]
  · rw [h1]
    exact upd_self _ _ _

def callsPanic : List (String × BodyCode) := [("a", BodyCode.panics 7)]

def sPanic : FunnelState :=
  run cfg0 (initState callsPanic)
    [Action.callerStart 0, Action.callerTimer 0, Action.callerDelete 0, Action.execRun 0]

/-- C10 witness: concrete evicted record with a pending panic payload 7; the
deferred cleanup leaves everything untouched and the panic escapes. -/
theorem panic_escapes_unrecovered_when_deleted_witness :
    ({ operationId := "a", res := none, err := none, panicErr := none,
       deleted := true, completed := false, doneClosed := false,
       startTime := 0, invCount := 1 } : OpRecord).panicErr = none ∧
    ({ operationId := "a", res := none, err := none, panicErr := none,
       deleted := true, completed := false, doneClosed := false,
       startTime := 0, invCount := 1 } : OpRecord).doneClosed = false ∧
    ({ recIdx := 0, body := BodyCode.panics 7, phase := ExecPhase.toClose (some 7) }
      : ExecThread).body = BodyCode.panics 7 ∧
    (stepA cfg0 sPanic (Action.execClose 0)).records = sPanic.records ∧
    (stepA cfg0 sPanic (Action.execClose 0)).ttls = sPanic.ttls ∧
    (stepA cfg0 sPanic (Action.execClose 0)).execs 0
      = some { recIdx := 0, body := BodyCode.panics 7, phase := ExecPhase.exited true } :=
  panic_escapes_unrecovered_when_deleted
    (reach_run cfg0 (Reach.init callsPanic)
      [Action.callerStart 0, Action.callerTimer 0, Action.callerDelete 0, Action.execRun 0])
    0 { recIdx := 0, body := BodyCode.panics 7, phase := ExecPhase.toClose (some 7) } 7
    (by rfl) (by rfl)
    { operationId := "a", res := none, err := none, panicErr := none,
      deleted := true, completed := false, doneClosed := false,
      startTime := 0, invCount := 1 }
    (by rfl) (by rfl)

end Funnel

namespace Funnel

def cfgDflt : Config := New []

/-- Concrete run: the operation body for id "a" panics with payload 7, the
executor's deferred cleanup runs to completion while the record is live. -/
def sPanicDone : FunnelState :=
  run cfgDflt (initState callsPanic)
    [Action.callerStart 0, Action.execRun 0, Action.execClose 0]

/-- C3 counterexample: after a fatal failure of the operation body the
cleanup captured the payload (`panicErr = some 7`) and closed the done
channel, the executor exited — yet `completedFlag` is still false, refuting
"in both cases then sets the Record's completedFlag". -/
theorem executor_outcome_recorded_counterexample :
    (sPanicDone.records 0).map OpRecord.panicErr = some (some 7) ∧
    (sPanicDone.records 0).map OpRecord.completed = some false ∧
    (sPanicDone.records 0).map OpRecord.doneClosed = some true ∧
    (sPanicDone.execs 0).map ExecThread.phase = some (ExecPhase.exited false) := by
  exact ⟨by decide, by decide, by decide, by decide⟩

/-- C3 (amended): the executor records the outcome of every body execution,
but sets `completedFlag` only on normal return: on normal return it stores
`(value, error)` and then sets `completedFlag`; on a fatal failure the
deferred cleanup captures the payload into `panicErr` provided the record has
not been deleted, and `completedFlag` is never set. -/
theorem executor_outcome_recorded {cfg : Config} {s : FunnelState}
    (hreach : Reach cfg s) (k : Nat) (e : ExecThread)
    (he : s.execs k = some e) (hph : e.phase = ExecPhase.toRun)
    (r : OpRecord) (hr : s.records e.recIdx = some r) :
    (∀ v er, e.body = BodyCode.returns v er →
      ∃ r', (run cfg s [Action.execRun k, Action.execComplete k]).records e.recIdx
          = some r' ∧
        r'.res = v ∧ r'.err = er.map GoErr.userErr ∧ r'.completed = true) ∧
    (∀ p, e.body = BodyCode.panics p →
      ∃ r', (run cfg s [Action.execRun k]).records e.recIdx = some r' ∧
        r'.completed = false ∧ r'.panicErr = none ∧
        (r.deleted = false →
          ∃ r'', (run cfg s [Action.execRun k, Action.execClose k]).records e.recIdx
              = some r'' ∧
            r''.panicErr = some p ∧ r''.completed = false ∧ r''.doneClosed = true)) := by
  have hs := reach_inv hreach
  have hRun := hs.phaseRun k e r he hr hph
  constructor
  · intro v er hbody
    have h1 : stepA cfg s (Action.execRun k)
        = { s with records := (upd s.records e.recIdx ({ r with res := v, err := er.map GoErr.userErr, invCount := r.invCount + 1 })), execs := (upd s.execs k ({ e with phase := ExecPhase.toSetCompleted })) } := by
      simp only [stepA, he, hph, hr, hbody]
    have he1 : (stepA cfg s (Action.execRun k)).execs k
        = some ({ e with phase := ExecPhase.toSetCompleted }) := by
      rw [h1]
      exact upd_self _ _ _
    have hr1 : (stepA cfg s (Action.execRun k)).records e.recIdx
        = some ({ r with res := v, err := er.map GoErr.userErr, invCount := r.invCount + 1 }) := by
      rw [h1]
      exact upd_self _ _ _
    refine ⟨({ r with res := v, err := er.map GoErr.userErr, invCount := r.invCount + 1, completed := true } : OpRecord), ?_, rfl, rfl, rfl⟩
    show (stepA cfg (stepA cfg s (Action.execRun k)) (Action.execComplete k)).records e.recIdx = some _
    generalize hgen : stepA cfg s (Action.execRun k) = s1 at he1 hr1
    simp only [stepA, he1, hr1]
    exact upd_self _ _ _
  · intro p hbody
    have h1 : stepA cfg s (Action.execRun k)
        = { s with records := (upd s.records e.recIdx ({ r with invCount := r.invCount + 1 })), execs := (upd s.execs k ({ e with phase := ExecPhase.toClose (some p) })) } := by
      simp only [stepA, he, hph, hr, hbody]
    have he1 : (stepA cfg s (Action.execRun k)).execs k
        = some ({ e with phase := ExecPhase.toClose (some p) }) := by
      rw [h1]
      exact upd_self _ _ _
    have hr1 : (stepA cfg s (Action.execRun k)).records e.recIdx
        = some ({ r with invCount := r.invCount + 1 }) := by
      rw [h1]
      exact upd_self _ _ _
    refine ⟨({ r with invCount := r.invCount + 1 } : OpRecord), ?_, ?_, ?_, ?_⟩
    · show (stepA cfg s (Action.execRun k)).records e.recIdx = some _
      exact hr1
    · show r.completed = false
      exact hRun.1
    · show r.panicErr = none
      exact hRun.2.2
    · intro hdel
      refine ⟨({ r with invCount := r.invCount + 1, panicErr := some p, doneClosed := true } : OpRecord), ?_, rfl, hRun.1, rfl⟩
      show (stepA cfg (stepA cfg s (Action.execRun k)) (Action.execClose k)).records e.recIdx = some _
      generalize hgen : stepA cfg s (Action.execRun k) = s1 at he1 hr1
      simp only [stepA, he1, hr1]
      rw [if_neg (by rw [show ({ r with invCount := r.invCount + 1 } : OpRecord).deleted = r.deleted from rfl, hdel]; intro h; cases h)]
      exact upd_self _ _ _

def sPanicStart : FunnelState := run cfgDflt (initState callsPanic) [Action.callerStart 0]

/-- C3 witness: the amended statement applied to the freshly created record
for the panicking body. -/
theorem executor_outcome_recorded_witness :
    (∀ v er, BodyCode.panics 7 = BodyCode.returns v er →
      ∃ r', (run cfgDflt sPanicStart
          [Action.execRun 0, Action.execComplete 0]).records 0 = some r' ∧
        r'.res = v ∧ r'.err = er.map GoErr.userErr ∧ r'.completed = true) ∧
    (∀ p, BodyCode.panics 7 = BodyCode.panics p →
      ∃ r', (run cfgDflt sPanicStart [Action.execRun 0]).records 0 = some r' ∧
        r'.completed = false ∧ r'.panicErr = none ∧
        ((false : Bool) = false →
          ∃ r'', (run cfgDflt sPanicStart
              [Action.execRun 0, Action.execClose 0]).records 0 = some r'' ∧
            r''.panicErr = some p ∧ r''.completed = false ∧ r''.doneClosed = true)) :=
  executor_outcome_recorded
    (reach_run cfgDflt (Reach.init callsPanic) [Action.callerStart 0])
    0 { recIdx := 0, body := BodyCode.panics 7, phase := ExecPhase.toRun }
    (by rfl) (by rfl)
    { operationId := "a", res := none, err := none, panicErr := none,
      deleted := false, completed := false, doneClosed := false,
      startTime := 0, invCount := 0 }
    (by rfl)

end Funnel

namespace Funnel

/-- Pointer-level model of result values for `ExecuteAndCopyResult`: a heap
of mutable cells, and a value as a tuple of cell addresses, so that sharing
and structural independence of storage are expressible. -/
structure Heap where
  cells : List Nat
deriving DecidableEq, Repr

/-- A result value: the addresses of the cells backing it. -/
structure Ref where
  addrs : List Nat
deriving DecidableEq, Repr

/-- The observable content of a value: the cells it points to, in order. -/
def readVal (h : Heap) (v : Ref) : List Nat :=
  v.addrs.map (fun a => h.cells.getD a 0)

/-- Mutation of one backing cell. -/
def writeCell (h : Heap) (a n : Nat) : Heap :=
  ⟨h.cells.set a n⟩

/-- Modelled from the spec: `deepcopy.Copy` (github.com/mohae/deepcopy) is an
external collaborator whose sources are not in this repository — "a deep-copy
utility capable of cloning an arbitrary result value", returning "a
structurally independent deep copy".  It allocates fresh cells holding the
same content and returns a value backed by those fresh cells. -/
def deepcopyCopy (h : Heap) (v : Ref) : Heap × Ref :=
  (⟨h.cells ++ readVal h v⟩,
   ⟨(List.range v.addrs.length).map (fun i => i + h.cells.length)⟩)

/-- `ExecuteAndCopyResult` (funnel.go): given `Execute`'s outcome
`(opRes, err)`, if `opRes != nil` it returns `deepcopy.Copy(opRes)`, else the
nil value; the error is returned verbatim in both cases. -/
def executeAndCopyResult (h : Heap) (opRes : Option Ref) (err : Option GoErr) :
    Heap × Option Ref × Option GoErr :=
  match opRes with
  | none => (h, none, err)
  | some v => ((deepcopyCopy h v).1, some (deepcopyCopy h v).2, err)

theorem getD_range_map (l : List Nat) :
    (List.range l.length).map (fun i => l.getD i 0) = l := by
  induction l with
  | nil => rfl
  | cons x xs ih =>
    rw [List.length_cons, List.range_succ_eq_map, List.map_cons, List.map_map]
    show x :: List.map (fun i => xs.getD i 0) (List.range xs.length) = x :: xs
    rw [ih]

/-- C8: `ExecuteAndCopyResult` forwards `Execute`'s outcome, except that a
non-nil value is replaced by a deep copy: the copy reads equal to the shared
value, is backed by cells disjoint from the original's, and mutating any of
the copy's cells is unobservable through the original (the cached record's
value); a nil value is returned as nil with no copy made and the heap
untouched, and the error is passed through verbatim in both cases. -/
theorem executeAndCopyResult_deep_copy (h : Heap) (err : Option GoErr) :
    (executeAndCopyResult h none err = (h, none, err)) ∧
    (∀ v : Ref, (∀ a ∈ v.addrs, a < h.cells.length) →
      ∃ h' c, executeAndCopyResult h (some v) err = (h', some c, err) ∧
        readVal h' c = readVal h v ∧
        readVal h' v = readVal h v ∧
        (∀ a ∈ c.addrs, a ∉ v.addrs) ∧
        (∀ a ∈ c.addrs, ∀ n, readVal (writeCell h' a n) v = readVal h' v)) := by
  constructor
  · rfl
  · intro v hbound
    refine ⟨(deepcopyCopy h v).1, (deepcopyCopy h v).2, rfl, ?_, ?_, ?_, ?_⟩
    · show readVal ⟨h.cells ++ readVal h v⟩ ⟨(List.range v.addrs.length).map (fun i => i + h.cells.length)⟩ = readVal h v
      unfold readVal
      rw [List.map_map]
      have hpt : ∀ i : Nat,
          ((fun a => (h.cells ++ (v.addrs.map (fun a => h.cells.getD a 0))).getD a 0)
            ∘ (fun i => i + h.cells.length)) i
          = (v.addrs.map (fun a => h.cells.getD a 0)).getD i 0 := by
        intro i
        show (h.cells ++ (v.addrs.map (fun a => h.cells.getD a 0))).getD (i + h.cells.length) 0
          = (v.addrs.map (fun a => h.cells.getD a 0)).getD i 0
        rw [List.getD_append_right _ _ _ _ (Nat.le_add_left _ _), Nat.add_sub_cancel]
      rw [funext hpt]
      have hlen : v.addrs.length = (v.addrs.map (fun a => h.cells.getD a 0)).length := by
        rw [List.length_map]
      rw [hlen, getD_range_map]
    · show (v.addrs.map (fun a => (h.cells ++ readVal h v).getD a 0))
        = (v.addrs.map (fun a => h.cells.getD a 0))
      refine List.map_congr_left ?_
      intro a ha
      exact List.getD_append _ _ _ _ (hbound a ha)
    · intro a ha hmem
      have ha' : ∃ i, i < v.addrs.length ∧ i + h.cells.length = a := by
        simpa [deepcopyCopy] using ha
      obtain ⟨i, _, rfl⟩ := ha'
      have := hbound _ hmem
      omega
    · intro a ha n
      have ha' : ∃ i, i < v.addrs.length ∧ i + h.cells.length = a := by
        simpa [deepcopyCopy] using ha
      obtain ⟨i, _, rfl⟩ := ha'
      show (v.addrs.map (fun b => ((h.cells ++ readVal h v).set (i + h.cells.length) n).getD b 0))
        = (v.addrs.map (fun b => (h.cells ++ readVal h v).getD b 0))
      refine List.map_congr_left ?_
      intro b hb
      have hblt := hbound b hb
      have hne : i + h.cells.length ≠ b := by omega
      simp [List.getD, List.getElem?_set_ne hne, List.getElem?_append, hblt]

/-- C8 witness: the nil case passes `(nil, error)` through with the heap
untouched; for the concrete two-cell value the copy reads equal, is backed by
disjoint storage, and mutating a copy cell is unobservable via the original. -/
theorem executeAndCopyResult_deep_copy_witness :
    (executeAndCopyResult ⟨[4, 9]⟩ none (some (GoErr.userErr 1))
      = (⟨[4, 9]⟩, none, some (GoErr.userErr 1))) ∧
    (∃ h' c, executeAndCopyResult ⟨[4, 9]⟩ (some ⟨[0, 1]⟩) (some (GoErr.userErr 1))
        = (h', some c, some (GoErr.userErr 1)) ∧
      readVal h' c = readVal ⟨[4, 9]⟩ ⟨[0, 1]⟩ ∧
      readVal h' ⟨[0, 1]⟩ = readVal ⟨[4, 9]⟩ ⟨[0, 1]⟩ ∧
      (∀ a ∈ c.addrs, a ∉ Ref.addrs ⟨[0, 1]⟩) ∧
      (∀ a ∈ c.addrs, ∀ n, readVal (writeCell h' a n) ⟨[0, 1]⟩ = readVal h' ⟨[0, 1]⟩)) :=
  ⟨(executeAndCopyResult_deep_copy ⟨[4, 9]⟩ (some (GoErr.userErr 1))).1,
   (executeAndCopyResult_deep_copy ⟨[4, 9]⟩ (some (GoErr.userErr 1))).2
     ⟨[0, 1]⟩ (by decide)⟩

end Funnel
